import Mathlib

/-!
Verification development for the arcor2 action-graph / script compiler.

The embedding follows `src/generate_source.py` and `src/arcor2/helpers.py`.
Program text is abstracted at the statement level: the Emitter's output and the
Recoverer's input are the list of statements of the generated script's main
loop body (parsing/unparsing of the surrounding skeleton is the identity on
that list, which is the only part either direction inspects).  Machinery that
is part of the repository but not shipped under `src/` (the data classes and
`get_actions_cache`) is modelled from the spec and marked as such.
-/

namespace Arcor2

/-! ## helpers.py: camel_case_to_snake_case (lines 56-59) and its regexes -/

def isAsciiUpper (c : Char) : Bool := 'A' ≤ c && c ≤ 'Z'

def isAsciiLower (c : Char) : Bool := 'a' ≤ c && c ≤ 'z'

def isLowerOrDigit (c : Char) : Bool := isAsciiLower c || ('0' ≤ c && c ≤ '9')

/-- One pass of `_first_cap_re.sub`, i.e. `re.sub` with pattern
`(.)([A-Z][a-z]+)` and a replacement that inserts an underscore between the
two groups.  Leftmost, non-overlapping matches; `.` does not match a newline;
`[a-z]+` is greedy.  The `fuel` argument keeps the recursion structural (the
call site passes the list length, which always suffices because every
recursive call strictly shrinks the list). -/
def sub1Fuel : Nat → List Char → List Char
  | 0, l => l
  | _, [] => []
  | fuel + 1, c :: rest =>
    if c = '\n' then c :: sub1Fuel fuel rest
    else
      match rest with
      | [] => [c]
      | u :: r2 =>
        if isAsciiUpper u && !(r2.takeWhile isAsciiLower).isEmpty then
          c :: '_' :: u :: (r2.takeWhile isAsciiLower ++ sub1Fuel fuel (r2.dropWhile isAsciiLower))
        else
          c :: sub1Fuel fuel rest

def sub1 (l : List Char) : List Char := sub1Fuel l.length l

/-- One pass of `_all_cap_re.sub`, i.e. `re.sub` with pattern
`([a-z0-9])([A-Z])` and a replacement inserting an underscore between the two
groups.  Both matched characters are consumed, so scanning resumes after the
uppercase character. -/
def sub2 : List Char → List Char
  | [] => []
  | [c] => [c]
  | c :: u :: rest =>
    if isLowerOrDigit c && isAsciiUpper u then
      c :: '_' :: sub2 (u :: rest)
    else
      c :: sub2 (u :: rest)

/-- Python `str.lower`, restricted to ASCII (identifiers handled by the tool
are ASCII). -/
def asciiToLower (c : Char) : Char :=
  if isAsciiUpper c then Char.ofNat (c.toNat + 32) else c

/-- `arcor2.helpers.camel_case_to_snake_case`:
`_all_cap_re.sub(r'\x5c1_\x5c2', _first_cap_re.sub(r'\x5c1_\x5c2', s)).lower()`. -/
def camel_case_to_snake_case (s : String) : String :=
  String.mk ((sub2 (sub1 s.data)).map asciiToLower)

/-- `generate_source.py` imports this helper under the name `convert_cc`
(`from arcor2.helpers import convert_cc`); the claims' source mapping binds it
to `camel_case_to_snake_case`. -/
def convert_cc (s : String) : String := camel_case_to_snake_case s

/-- Python `s.replace(' ', '_')`: the pattern is a single character, so the
replacement is character-wise. -/
def pyReplaceSpaceByUnderscore (s : String) : String :=
  String.mk (s.data.map (fun c => if c = ' ' then '_' else c))

/-- `generate_source.fix_object_name` (lines 147-149):
`convert_cc(object_id).replace(' ', '_')`. -/
def fix_object_name (objectId : String) : String :=
  pyReplaceSpaceByUnderscore (convert_cc objectId)

/-! ## Data model (arcor2.data is not under src/; modelled from the spec §3) -/

/-- Modelled from the spec: the `FIRST` sentinel of `ActionIOEnum` (the value
matches the Emitter's error message `'start' action not found`). -/
def FIRST : String := "start"

/-- Modelled from the spec: the `LAST` sentinel of `ActionIOEnum`. -/
def LAST : String := "end"

/-- Modelled from the spec: an `ActionIO` link endpoint — either another
action's id or one of the two sentinels; the code reads it through the
`default` attribute.  (Source name `ActionIO`.) -/
structure ActionIo where
  default : String
deriving DecidableEq

/-- Modelled from the spec: an `Action` — id (unique within a project), type
`"object-id/method"`, ordered input and output links. -/
structure Action where
  id : String
  type : String
  inputs : List ActionIo
  outputs : List ActionIo
deriving DecidableEq

/-- Modelled from the spec: a `Project` — its id and its action graph
(flattened to the list of actions, in the order `get_actions_cache` walks
them). -/
structure Project where
  id : String
  actions : List Action
deriving DecidableEq

/-- Modelled from the spec: one scene object instance. -/
structure SceneObject where
  id : String
  type : String
deriving DecidableEq

/-- Modelled from the spec: a `Scene` — its ordered object instances. -/
structure Scene where
  objects : List SceneObject
deriving DecidableEq

/-- `act.inputs and act.inputs[0].default == ActionIOEnum.FIRST.value`. -/
def hasFirst (a : Action) : Bool :=
  match a.inputs with
  | [] => false
  | io :: _ => decide (io.default = FIRST)

/-- `act.outputs and act.outputs[0].default == ActionIOEnum.LAST.value`. -/
def hasLast (a : Action) : Bool :=
  match a.outputs with
  | [] => false
  | io :: _ => decide (io.default = LAST)

/-! ## The action cache (a Python dict, id → Action, in insertion order) -/

abbrev Cache := List (String × Action)

def lookupKV {α : Type} : List (String × α) → String → Option α
  | [], _ => none
  | p :: rest, k => if p.1 = k then some p.2 else lookupKV rest k

def containsKey {α : Type} : List (String × α) → String → Bool
  | [], _ => false
  | p :: rest, k => if p.1 = k then true else containsKey rest k

/-- Python dict assignment `d[k] = v`: overwrites in place (keeping the
original position) or appends a new binding. -/
def insertKV {α : Type} (l : List (String × α)) (k : String) (v : α) : List (String × α) :=
  if containsKey l k then l.map (fun p => if p.1 = k then (k, v) else p)
  else l ++ [(k, v)]

def buildCache (as : List Action) : Cache :=
  as.foldl (fun c a => insertKV c a.id a) []

/-- The marker scan of `get_actions_cache`: walking the actions in order and
overwriting the remembered id whenever the predicate holds (dict-style, the
last assignment wins). -/
def markerFold (pred : Action → Bool) : Option String → List Action → Option String
  | acc, [] => acc
  | acc, a :: rest => markerFold pred (if pred a then some a.id else acc) rest

/-- Modelled from the spec: `arcor2.helpers.get_actions_cache(project)` is not
under src/.  Per the spec it returns the id→Action cache over the project's
whole action set together with the id of the `FIRST`-rooted action and the id
of the `LAST`-marked action (each `None` when absent); the Emitter's and
Recoverer's code in src/ consume exactly this triple. -/
def get_actions_cache (p : Project) : Cache × Option String × Option String :=
  (buildCache p.actions, markerFold hasFirst none p.actions, markerFold hasLast none p.actions)

/-! ## Program text, abstracted to main-loop statements -/

/-- A statement of the generated script's main loop body.
`actionCall obj method aid` stands for `obj.method(**res.aid)`; `other` stands
for any statement not of that shape (the Recoverer rejects it). -/
inductive Stmt where
  | actionCall (objId : String) (method : String) (actionId : String)
  | other
deriving DecidableEq

/-- Python `s.split('/')` on the character list: split at every slash
(adjacent separators yield empty parts, the empty string yields `[""]`). -/
def splitOnSlash : List Char → List (List Char)
  | [] => [[]]
  | c :: rest =>
    match splitOnSlash rest with
    | [] => []
    | part :: parts => if c = '/' then [] :: part :: parts else (c :: part) :: parts

/-- `obj, method = action.type.split('/')`: Python's 2-tuple unpacking of
`str.split` succeeds exactly when the split yields two parts, and raises
`ValueError` (an untyped crash) otherwise. -/
def splitType (t : String) : Option (String × String) :=
  match (splitOnSlash t.data).map String.mk with
  | [a, b] => some (a, b)
  | _ => none

/-! ## The Emitter: program_src / add_logic_to_loop (lines 152-171, 240-275) -/

/-- Outcome of the Emitter.  `ok` carries the generated main-loop statements;
`err` is a `GenerateSourceException`; `pyerr` an untyped Python exception
(`KeyError`/`ValueError`/`IndexError`); `timeout` marks that the given number
of loop iterations did not finish — the Python `while True` loop has no bound,
so an input on which every fuel yields `timeout` makes the code diverge. -/
inductive EmitOutcome where
  | ok (stmts : List Stmt)
  | err (msg : String)
  | pyerr (msg : String)
  | timeout
deriving DecidableEq

/-- The `while True` loop of `add_logic_to_loop` (lines 254-275), one fuel per
iteration.  Each iteration appends `fix_object_name(obj).method(**res.act_id)`
for the cached action, breaks after the `LAST`-marked action, and otherwise
follows `act.outputs[0].default`. -/
def add_logic_loop (cache : Cache) (lastId : String) : Nat → String → EmitOutcome
  | 0, _ => .timeout
  | fuel + 1, nextId =>
    match lookupKV cache nextId with
    | none => .pyerr "KeyError"
    | some act =>
      match splitType act.type with
      | none => .pyerr "ValueError"
      | some (acObj, acType) =>
        let stmt := Stmt.actionCall (fix_object_name acObj) acType act.id
        if act.id = lastId then .ok [stmt]
        else
          match act.outputs with
          | [] => .pyerr "IndexError"
          | out :: _ =>
            match add_logic_loop cache lastId fuel out.default with
            | .ok stmts => .ok (stmt :: stmts)
            | e => e

/-- `add_logic_to_loop` (lines 240-275): build the action cache; a missing
`FIRST`-rooted action or a missing `LAST`-marked action is a
`GenerateSourceException` raised before anything is appended to the loop. -/
def add_logic_to_loop (p : Project) (fuel : Nat) : EmitOutcome :=
  match get_actions_cache p with
  | (cache, firstId, lastId) =>
    match firstId with
    | none => .err "start action not found."
    | some f =>
      match lastId with
      | none => .err "end action not found."
      | some l => add_logic_loop cache l fuel f

/-- `program_src` (lines 152-171).  The imports and the per-scene-object
instantiations never fail (`try_to_import=False`) and do not touch the main
loop, so the outcome — and the loop body of the rendered text — is exactly
that of `add_logic_to_loop`. -/
def program_src (p : Project) (scene : Scene) (fuel : Nat) : EmitOutcome :=
  add_logic_to_loop p fuel

/-! ## The Recoverer: get_logic_from_source (lines 174-237) -/

/-- The Recoverer's mutable state: the caller's action cache (mutated in
place in Python), the set of already-seen action ids, and the previously
processed action's id (`last_action`). -/
structure RecState where
  cache : Cache
  found : List String
  lastId : Option String
deriving DecidableEq

/-- Result of the Recoverer.  Errors carry the cache as it stands when the
exception is raised, since the Python code mutates the caller's cache in
place. -/
inductive RecResult where
  | ok (st : RecState)
  | err (msg : String) (cache : Cache)
  | pyerr (msg : String) (cache : Cache)
deriving DecidableEq

/-- Mutation of the dict entry under key `k` (the cache maps `a.id ↦ a` and
ids are never reassigned, so mutating the looked-up object is mutating the
entry under its key). -/
def updAct (c : Cache) (k : String) (f : Action → Action) : Cache :=
  c.map (fun p => if p.1 = k then (p.1, f p.2) else p)

/-- One iteration of the Recoverer's statement loop (lines 187-237), with
`isLast` standing for `node_idx == len(loop) - 1`.  The two Python messages
for malformed statements ("Unexpected content." for a non-`Expr` node and
"Script has unexpected content." for a call of the wrong shape) are both
represented by `Stmt.other`. -/
def recStep (st : RecState) (s : Stmt) (isLast : Bool) : RecResult :=
  match s with
  | .other => .err "Unexpected content." st.cache
  | .actionCall objId method actionId =>
    if actionId ∈ st.found then
      .err ("Duplicate action: " ++ actionId ++ ".") st.cache
    else
      match lookupKV st.cache actionId with
      | none => .err ("Unknown action " ++ actionId ++ ".") st.cache
      | some action =>
        match splitType action.type with
        | none => .pyerr "ValueError" st.cache
        | some (atObjRaw, atMethod) =>
          if convert_cc atObjRaw ≠ objId ∨ atMethod ≠ method then
            .err "Action type does not correspond to source." st.cache
          else
            let inIo : ActionIo :=
              match st.lastId with
              | none => ⟨FIRST⟩
              | some lid => ⟨lid⟩
            let c1 := updAct st.cache actionId
              (fun a => { a with inputs := [inIo], outputs := [] })
            let c2 :=
              match st.lastId with
              | none => c1
              | some lid => updAct c1 lid
                  (fun a => { a with outputs := a.outputs ++ [⟨action.id⟩] })
            let c3 :=
              if isLast then
                updAct c2 actionId (fun a => { a with outputs := a.outputs ++ [⟨LAST⟩] })
              else c2
            .ok ⟨c3, actionId :: st.found, some action.id⟩

/-- The Recoverer's loop over the main-loop statements, threading the index
only through "am I the last statement". -/
def recoverAux : RecState → List Stmt → RecResult
  | st, [] => .ok st
  | st, s :: rest =>
    match recStep st s rest.isEmpty with
    | .ok st' => recoverAux st' rest
    | e => e

/-- Processing a strict prefix of the loop body: no statement of the prefix is
the final statement of the whole loop, so `isLast` is `false` throughout. -/
def recoverPre : RecState → List Stmt → RecResult
  | st, [] => .ok st
  | st, s :: rest =>
    match recStep st s false with
    | .ok st' => recoverPre st' rest
    | e => e

def initState (p : Project) : RecState :=
  ⟨(get_actions_cache p).1, [], none⟩

/-- `get_logic_from_source` (lines 174-237), taking the parsed main-loop body
of the program text. -/
def get_logic_from_source (loop : List Stmt) (p : Project) : RecResult :=
  recoverAux (initState p) loop

/-! ## The Object-Type Inspector (lines 30-144), on parsed object-type source -/

/-- A method parameter: its name and its optional type `annotation.id`. -/
structure PyArg where
  name : String
  annot : Option String
deriving DecidableEq

structure PyFunctionDef where
  name : String
  decorators : List String
  args : List PyArg
deriving DecidableEq

/-- Modelled from the spec: `ActionMetadata` capability flags (arcor2.data is
not under src/; §3 lists free / blocking / composite / blackbox booleans). -/
structure ActionMetadata where
  free : Bool := false
  blocking : Bool := false
  composite : Bool := false
  blackbox : Bool := false
deriving DecidableEq

/-- A top-level statement of a class body, at the granularity the Inspector
distinguishes: `<method>.__action__ = ActionMetadata(kwargs...)` assignments,
method definitions, anything else. -/
inductive ClsStmt where
  | actionMeta (method : String) (kwargs : List (String × Bool))
  | funcDef (fd : PyFunctionDef)
  | otherStmt
deriving DecidableEq

structure PyClassDef where
  name : String
  bases : List String
  body : List ClsStmt
deriving DecidableEq

/-- A top-level statement of an object-type source unit. -/
inductive TopStmt where
  | classDef (cd : PyClassDef)
  | otherTop
deriving DecidableEq

structure ObjectActionArgs where
  name : String
  type : String
deriving DecidableEq

structure ObjectAction where
  name : String
  meta : ActionMetadata
  action_args : List ObjectActionArgs
deriving DecidableEq

/-- The scan of `object_cls_def` (lines 127-144): the `for` loop `break`s as
soon as the first `ClassDef` is found, which makes the
`Multiple class definition` branch of the source unreachable. -/
def findClsDef : List TopStmt → Option PyClassDef
  | [] => none
  | .classDef cd :: _ => some cd
  | .otherTop :: rest => findClsDef rest

/-- `object_cls_def` (lines 127-144): the for-else raises
`No class definition` only when the loop finishes without a `break`. -/
def object_cls_def (body : List TopStmt) : Except String PyClassDef :=
  match findClsDef body with
  | some cd => .ok cd
  | none => .error "No class definition!"

/-- `setattr(meta, kwarg.arg, kwarg.value.value)` with the `AttributeError`
fallout for an unknown flag turned into the source's
`Unknown __action__ attribute` error (lines 53-57); the flag set is modelled
from the spec. -/
def setMetaAttr (m : ActionMetadata) (k : String) (v : Bool) : Except String ActionMetadata :=
  if k = "free" then .ok { m with free := v }
  else if k = "blocking" then .ok { m with blocking := v }
  else if k = "composite" then .ok { m with composite := v }
  else if k = "blackbox" then .ok { m with blackbox := v }
  else .error ("Unknown action attribute " ++ k ++ ".")

def setMetaAttrs (m : ActionMetadata) : List (String × Bool) → Except String ActionMetadata
  | [] => .ok m
  | (k, v) :: rest =>
    match setMetaAttr m k v with
    | .error e => .error e
    | .ok m2 => setMetaAttrs m2 rest

/-- First pass of `get_object_actions` (lines 37-58): build the
name → metadata table from the `__action__` assignments, dict-style. -/
def buildActionAttr : List ClsStmt → List (String × ActionMetadata) →
    Except String (List (String × ActionMetadata))
  | [], table => .ok table
  | .actionMeta m kwargs :: rest, table =>
    match setMetaAttrs {} kwargs with
    | .error e => .error e
    | .ok meta => buildActionAttr rest (insertKV table m meta)
  | _ :: rest, table => buildActionAttr rest table

/-- The decorator scan (lines 67-69): does any decorator name equal
`action`? -/
def markerOf : List String → Bool
  | [] => false
  | d :: rest => if d = "action" then true else markerOf rest

/-- The parameter loop (lines 80-88): skip `self`, reject a missing
annotation, collect `(name, annotation.id)` in declaration order. -/
def processArgs : List PyArg → Except String (List ObjectActionArgs)
  | [] => .ok []
  | a :: rest =>
    if a.name = "self" then processArgs rest
    else
      match a.annot with
      | none => .error ("Argument " ++ a.name ++ " not annotated.")
      | some ty =>
        match processArgs rest with
        | .error e => .error e
        | .ok args => .ok (⟨a.name, ty⟩ :: args)

/-- Second pass of `get_object_actions` (lines 62-92): walk the method
definitions in order, enforce marker/metadata agreement for each method that
exists, and assemble one `ObjectAction` per accepted method. -/
def collectActions (table : List (String × ActionMetadata)) :
    List ClsStmt → Except String (List ObjectAction)
  | [] => .ok []
  | .funcDef fd :: rest =>
    if markerOf fd.decorators then
      match lookupKV table fd.name with
      | none => .error ("Method " ++ fd.name ++ " has action decorator, but no metadata.")
      | some meta =>
        match processArgs fd.args with
        | .error e => .error e
        | .ok args =>
          match collectActions table rest with
          | .error e => .error e
          | .ok ret => .ok (⟨fd.name, meta, args⟩ :: ret)
    else
      if containsKey table fd.name then
        .error ("Method " ++ fd.name ++ " has metadata, but no action decorator.")
      else collectActions table rest
  | _ :: rest => collectActions table rest

/-- `get_object_actions` (lines 30-92), on the parsed source unit. -/
def get_object_actions (body : List TopStmt) : Except String (List ObjectAction) :=
  match object_cls_def body with
  | .error e => .error e
  | .ok cd =>
    match buildActionAttr cd.body [] with
    | .error e => .error e
    | .ok table => collectActions table cd.body

/-! ## Derived notions used to state the claims -/

/-- The method definitions of a class body, in declaration order. -/
def funcDefsOf (body : List ClsStmt) : List PyFunctionDef :=
  body.filterMap (fun s => match s with | .funcDef fd => some fd | _ => none)

/-- The method names bound in the `__action__` metadata table. -/
def metaNames (body : List ClsStmt) : List String :=
  body.filterMap (fun s => match s with | .actionMeta m _ => some m | _ => none)

/-- The non-receiver parameter names of a method, in declaration order. -/
def nonSelfNames (args : List PyArg) : List String :=
  (args.filter (fun a => a.name ≠ "self")).map (fun a => a.name)

/-- The id walk of the Emitter's chain: follow `outputs[0]` from `cur`,
collecting ids, stopping at the `LAST`-marked action; `none` on a missing
action, an empty outputs list, or fuel exhaustion. -/
def chainWalk (cache : Cache) (lastId : String) : Nat → String → Option (List String)
  | 0, _ => none
  | fuel + 1, cur =>
    match lookupKV cache cur with
    | none => none
    | some act =>
      if act.id = lastId then some [act.id]
      else
        match act.outputs with
        | [] => none
        | out :: _ =>
          match chainWalk cache lastId fuel out.default with
          | none => none
          | some visited => some (act.id :: visited)

/-- Invariant 2 of the spec: following `outputs[0]` from the `FIRST`-rooted
action visits every action exactly once and terminates at the `LAST`-marked
action. -/
def chainCoversAll (p : Project) : Bool :=
  match get_actions_cache p with
  | (cache, some f, some l) =>
    match chainWalk cache l (p.actions.length + 1) f with
    | some visited =>
      (p.actions.map (fun a => a.id)).all (fun i => visited.count i = 1) &&
        visited.all (fun v => (p.actions.map (fun a => a.id)).contains v)
    | none => false
  | _ => false

/-- Well-formedness of an action type for emission/recovery: it splits as
`obj/method` and the sanitized object name needs no space replacement. -/
def typeOk (a : Action) : Bool :=
  match splitType a.type with
  | some (o, _) => !((convert_cc o).data.contains ' ')
  | none => false

/-- The spec's invariants 1-4 for a Project/Scene pair, as a decidable
predicate.  Invariant 3's catalog side is represented by its structural part:
the type splits as `obj/method` and the object part names a scene instance. -/
def validProject (p : Project) (s : Scene) : Bool :=
  ((p.actions.filter hasFirst).length = 1 : Bool) &&
    ((p.actions.filter hasLast).length = 1 : Bool) &&
    chainCoversAll p &&
    p.actions.all (fun a =>
      match splitType a.type with
      | some (o, _) => s.objects.any (fun ob => ob.id = o)
      | none => false) &&
    s.objects.all (fun o1 => s.objects.all (fun o2 =>
      fix_object_name o1.id ≠ fix_object_name o2.id || o1.id = o2.id))

/-- The statement the Emitter appends for an action (lines 262-270). -/
def mkStmt (a : Action) : Stmt :=
  match splitType a.type with
  | some (o, m) => Stmt.actionCall (fix_object_name o) m a.id
  | none => Stmt.other

def isGseErr : EmitOutcome → Bool
  | .err _ => true
  | _ => false

def isOkR : RecResult → Bool
  | .ok _ => true
  | _ => false

def isErrR : RecResult → Bool
  | .err _ _ => true
  | _ => false

def isErrE {α : Type} : Except String α → Bool
  | .error _ => true
  | _ => false

/-! ## Notions for the round-trip and invariant proofs -/

/-- Adjacency of the canonical single-path chain: `a`'s single output names
`b` and `b`'s single input names `a`. -/
def chainR (a b : Action) : Prop :=
  a.outputs = [⟨b.id⟩] ∧ b.inputs = [⟨a.id⟩]

instance : DecidableRel chainR := fun a b =>
  inferInstanceAs (Decidable (a.outputs = [⟨b.id⟩] ∧ b.inputs = [⟨a.id⟩]))

/-- The action cache as a pointwise modification of the project's actions:
entry `a.id ↦ h a.id a`. -/
def cacheMod (l : List Action) (h : String → Action → Action) : Cache :=
  l.map (fun a => (a.id, h a.id a))

/-- Composing one in-place entry update on top of a pointwise modification:
the entry under `k` additionally passes through `f`. -/
def updFun (k : String) (f : Action → Action) (h : String → Action → Action)
    (i : String) (y : Action) : Action :=
  if i = k then f (h i y) else h i y

/-- Invariant of the Recoverer's loop after at least one statement has been
processed and before the final one: the cache is a pointwise modification of
the project's actions; untouched actions are unmodified; the processed ones
have the `FIRST` marker exactly on the first statement's action and no `LAST`
marker yet. -/
def recMidInv (p : Project) (firstId : String) (st : RecState) : Prop :=
  firstId ∈ st.found ∧
  firstId ∈ p.actions.map (fun a => a.id) ∧
  (∃ l, st.lastId = some l ∧ l ∈ st.found ∧ l ≠ FIRST ∧ l ≠ LAST) ∧
  (∃ h, st.cache = cacheMod p.actions h ∧
    (∀ x ∈ p.actions, (h x.id x).id = x.id) ∧
    (∀ x ∈ p.actions, x.id ∉ st.found → h x.id x = x) ∧
    (∀ x ∈ p.actions, x.id ∈ st.found → ((hasFirst (h x.id x) = true) ↔ x.id = firstId)) ∧
    (∀ x ∈ p.actions, x.id ∈ st.found → hasLast (h x.id x) = false))

/-- State of the Recoverer after an error-free run: the `FIRST` marker sits
exactly on the first statement's action, the `LAST` marker exactly on the
final statement's action, among the actions the text referenced. -/
def recPostInv (p : Project) (firstId : String) (st : RecState) : Prop :=
  firstId ∈ st.found ∧
  firstId ∈ p.actions.map (fun a => a.id) ∧
  ∃ lastAid, st.lastId = some lastAid ∧ lastAid ∈ st.found ∧
    lastAid ∈ p.actions.map (fun a => a.id) ∧
    (∃ h, st.cache = cacheMod p.actions h ∧
      (∀ x ∈ p.actions, (h x.id x).id = x.id) ∧
      (∀ x ∈ p.actions, x.id ∈ st.found → ((hasFirst (h x.id x) = true) ↔ x.id = firstId)) ∧
      (∀ x ∈ p.actions, x.id ∈ st.found → ((hasLast (h x.id x) = true) ↔ x.id = lastAid)))

/-! ## Concrete instances used by counterexamples and witnesses -/

def emptyScene : Scene := ⟨[]⟩

/-- A valid single-action project whose object id contains a space. -/
def exActSpace : Action := ⟨"a", "My Obj/move", [⟨FIRST⟩], [⟨LAST⟩]⟩

def exProjSpace : Project := ⟨"p", [exActSpace]⟩

def exSceneSpace : Scene := ⟨[⟨"My Obj", "Box"⟩]⟩

/-- 2-chain project for witnesses: `a` → `b`. -/
def exActW1 : Action := ⟨"a", "Robot/move_to", [⟨FIRST⟩], [⟨"b"⟩]⟩

def exActW2 : Action := ⟨"b", "Robot/grab", [⟨"a"⟩], [⟨LAST⟩]⟩

def exProjChain : Project := ⟨"p", [exActW1, exActW2]⟩

def exSceneChain : Scene := ⟨[⟨"Robot", "GenericRobot"⟩]⟩

def exLoopChain : List Stmt :=
  [Stmt.actionCall "robot" "move_to" "a", Stmt.actionCall "robot" "grab" "b"]

/-- Two distinct actions, both with `inputs = [FIRST]`. -/
def exProjTwoFirst : Project :=
  ⟨"p", [⟨"a", "x/m", [⟨FIRST⟩], [⟨LAST⟩]⟩, ⟨"b", "x/m2", [⟨FIRST⟩], [⟨LAST⟩]⟩]⟩

/-- A project with a `FIRST`-rooted action but no `LAST`-marked action. -/
def exProjNoLast : Project := ⟨"p", [⟨"a", "x/m", [⟨FIRST⟩], [⟨"b"⟩]⟩]⟩

/-- The chain `a` (FIRST, LAST) plus the orphan `c` outside the chain. -/
def exProjOrphan : Project :=
  ⟨"p", [⟨"a", "x/m", [⟨FIRST⟩], [⟨LAST⟩]⟩, ⟨"c", "x/n", [⟨"a"⟩], [⟨"a"⟩]⟩]⟩

/-- A `FIRST`-rooted chain `a → b → a → …` that never reaches the
`LAST`-marked action `d`. -/
def exProjCycle : Project :=
  ⟨"p", [⟨"a", "x/m", [⟨FIRST⟩], [⟨"b"⟩]⟩, ⟨"b", "x/n", [⟨"a"⟩], [⟨"a"⟩]⟩,
         ⟨"d", "x/k", [⟨"b"⟩], [⟨LAST⟩]⟩]⟩

def exCycleCache : Cache := buildCache exProjCycle.actions

/-- Chain project for the duplicate-detection claim. -/
def exProjC7 : Project :=
  ⟨"p", [⟨"a", "x/m", [⟨FIRST⟩], [⟨"b"⟩]⟩, ⟨"b", "x/n", [⟨"a"⟩], [⟨LAST⟩]⟩]⟩

/-- The recovery state after processing the single statement `x.m(**res.a)`
on `exProjC7`: `a` is rewritten (inputs `[FIRST]`, outputs cleared), `b`
untouched. -/
def exStC7 : RecState :=
  ⟨[("a", ⟨"a", "x/m", [⟨FIRST⟩], []⟩), ("b", ⟨"b", "x/n", [⟨"a"⟩], [⟨LAST⟩]⟩)],
   ["a"], some "a"⟩

/-- Two actions both carrying markers; the text will reference only `a`. -/
def exProj9 : Project :=
  ⟨"p", [⟨"a", "x/m", [⟨FIRST⟩], [⟨LAST⟩]⟩, ⟨"b", "x/n", [⟨FIRST⟩], [⟨LAST⟩]⟩]⟩

def exLoop9 : List Stmt := [Stmt.actionCall "x" "m" "a"]

/-- The state after the error-free recovery of `exLoop9`: `a` rewritten to
exactly its previous links, the omitted `b` untouched — so both still carry
`FIRST`/`LAST` markers. -/
def exSt9 : RecState :=
  ⟨[("a", ⟨"a", "x/m", [⟨FIRST⟩], [⟨LAST⟩]⟩), ("b", ⟨"b", "x/n", [⟨FIRST⟩], [⟨LAST⟩]⟩)],
   ["a"], some "a"⟩

/-- The state after the error-free recovery of `exLoopChain` on
`exProjChain`: the canonical links rebuilt, `a` `FIRST`-rooted and `b`
`LAST`-marked, both referenced by the text. -/
def exStChain : RecState :=
  ⟨[("a", ⟨"a", "Robot/move_to", [⟨FIRST⟩], [⟨"b"⟩]⟩),
    ("b", ⟨"b", "Robot/grab", [⟨"a"⟩], [⟨LAST⟩]⟩)],
   ["b", "a"], some "b"⟩

/-- A class body whose metadata table names a method that does not exist. -/
def exClsGhostMeta : PyClassDef := ⟨"C", [], [.actionMeta "foo" []]⟩

def exBodyGhostMeta : List TopStmt := [.classDef exClsGhostMeta]

def exFdGood : PyFunctionDef :=
  ⟨"move", ["action"], [⟨"self", none⟩, ⟨"x", some "int"⟩, ⟨"y", some "str"⟩]⟩

def exClsGood : PyClassDef :=
  ⟨"C", [], [.actionMeta "move" [("blocking", true)], .funcDef exFdGood]⟩

def exBodyGood : List TopStmt := [.classDef exClsGood]

def exRetGood : List ObjectAction :=
  [⟨"move", ⟨false, true, false, false⟩, [⟨"x", "int"⟩, ⟨"y", "str"⟩]⟩]

/-- A class with an action-marked method that has no metadata entry. -/
def exClsNoMeta : PyClassDef := ⟨"C", [], [.funcDef ⟨"m", ["action"], []⟩]⟩

def exBodyNoMeta : List TopStmt := [.classDef exClsNoMeta]

def exClsA : PyClassDef := ⟨"A", [], []⟩

def exClsB : PyClassDef := ⟨"B", [], []⟩

/-! ## Basic helper lemmas -/

theorem map_eq_self_iff_of_mem {f : Char → Char} :
    ∀ l : List Char, l.map f = l ↔ ∀ c ∈ l, f c = c := by
  intro l
  induction l with
  | nil => simp
  | cons c rest ih => simp [ih]

theorem markerFold_eq_acc {pred : Action → Bool} :
    ∀ (l : List Action) (acc : Option String), (∀ a ∈ l, pred a = false) →
      markerFold pred acc l = acc := by
  intro l
  induction l with
  | nil => intro acc _; rfl
  | cons a rest ih =>
    intro acc h
    have ha := h a (List.mem_cons_self a rest)
    simp only [markerFold, ha, Bool.false_eq_true, if_false]
    exact ih acc fun b hb => h b (List.mem_cons_of_mem a hb)

theorem markerFold_some_of_some {pred : Action → Bool} :
    ∀ (l : List Action) (x : String), ∃ y, markerFold pred (some x) l = some y := by
  intro l
  induction l with
  | nil => intro x; exact ⟨x, rfl⟩
  | cons a rest ih =>
    intro x
    by_cases ha : pred a = true
    · simp only [markerFold, ha, if_true]
      exact ih a.id
    · simp only [markerFold, ha, if_false]
      exact ih x

theorem markerFold_exists {pred : Action → Bool} :
    ∀ (l : List Action) (acc : Option String), (∃ a ∈ l, pred a = true) →
      ∃ y, markerFold pred acc l = some y := by
  intro l
  induction l with
  | nil => intro acc h; simp at h
  | cons a rest ih =>
    intro acc h
    by_cases ha : pred a = true
    · simp only [markerFold, ha, if_true]
      exact markerFold_some_of_some rest a.id
    · simp only [markerFold, ha, if_false]
      obtain ⟨b, hb, hpb⟩ := h
      rcases List.mem_cons.mp hb with rfl | hb2
      · exact absurd hpb ha
      · exact ih acc ⟨b, hb2, hpb⟩

theorem add_logic_loop_no_gse (cache : Cache) (lastId : String) :
    ∀ (fuel : Nat) (cur : String), isGseErr (add_logic_loop cache lastId fuel cur) = false := by
  intro fuel
  induction fuel with
  | zero => intro cur; rfl
  | succ n ih =>
    intro cur
    unfold add_logic_loop
    split
    · rfl
    · split
      · rfl
      · split
        · rfl
        · split
          · rfl
          · split
            · rfl
            · exact ih _

/-! ## Claim theorems: C10, C4, C3, C2, C8 -/

/-- C10: the Emitter binds each scene object's instance to
`fix_object_name(id)` while the Recoverer compares against `convert_cc` of
the object part; the two names agree exactly when `convert_cc` of the id
contains no space (so exactly for such ids untampered emitted text can pass
the Recoverer's object/method check). -/
theorem C10_sanitization_agreement (objectId : String) :
    fix_object_name objectId = convert_cc objectId ↔
      ' ' ∉ (convert_cc objectId).data := by
  unfold fix_object_name pyReplaceSpaceByUnderscore
  rw [show (String.mk ((convert_cc objectId).data.map
        (fun c => if c = ' ' then '_' else c)) = convert_cc objectId) ↔
      ((convert_cc objectId).data.map (fun c => if c = ' ' then '_' else c)
        = (convert_cc objectId).data) from String.ext_iff]
  constructor
  · intro h hm
    have hc := (map_eq_self_iff_of_mem _).mp h ' ' hm
    simp only [if_pos rfl] at hc
    exact absurd hc (by decide)
  · intro h
    apply (map_eq_self_iff_of_mem _).mpr
    intro c hc
    have hne : ¬(c = ' ') := fun e => h (e ▸ hc)
    simp [hne]

/-- C4: the claim says `object_cls_def` errors both on zero and on more than
one class definition.  The zero case does error, but the source's `for` loop
`break`s at the first `ClassDef`, so with two class definitions the first one
is returned silently — the `Multiple class definition!` raise is unreachable,
contradicting the code's own error branch. -/
theorem C4_object_cls_def_code_bug :
    object_cls_def [TopStmt.classDef exClsA, TopStmt.classDef exClsB] = .ok exClsA ∧
    object_cls_def [TopStmt.otherTop] = .error "No class definition!" :=
  ⟨rfl, rfl⟩

/-- C3: a project graph with no `FIRST`-rooted action, or with one but no
`LAST`-marked action, makes the Emitter raise the corresponding typed
structural error (for the missing-`LAST` case the `end action not found`
error) before any text is produced. -/
theorem C3_missing_terminators (p : Project) (scene : Scene) (fuel : Nat) :
    ((∀ a ∈ p.actions, hasFirst a = false) →
      program_src p scene fuel = .err "start action not found.") ∧
    ((∃ a ∈ p.actions, hasFirst a = true) → (∀ a ∈ p.actions, hasLast a = false) →
      program_src p scene fuel = .err "end action not found.") := by
  constructor
  · intro h
    unfold program_src add_logic_to_loop get_actions_cache
    rw [markerFold_eq_acc p.actions none h]
  · intro h1 h2
    unfold program_src add_logic_to_loop get_actions_cache
    obtain ⟨f, hf⟩ := markerFold_exists p.actions none h1
    rw [hf, markerFold_eq_acc p.actions none h2]

theorem C3_missing_terminators_witness :
    program_src exProjNoLast emptyScene 1 = .err "end action not found." :=
  (C3_missing_terminators exProjNoLast emptyScene 1).2 (by decide) (by decide)

/-- C2 counterexample: a graph with two distinct actions both having
`inputs = [FIRST]` is not rejected — the Emitter emits the program text built
from the cached start action. -/
theorem C2_counterexample :
    (exProjTwoFirst.actions.filter hasFirst).length = 2 ∧
    program_src exProjTwoFirst emptyScene 1 = .ok [Stmt.actionCall "x" "m2" "b"] :=
  ⟨rfl, by decide⟩

/-- C2 (amended): a graph with two actions both having `inputs = [FIRST]` is
not rejected by the Emitter; the only structural checks are the existence of
a `FIRST`-rooted and of a `LAST`-marked action, so whenever both markers are
present no `GenerateSourceException` is raised. -/
theorem C2_amended_no_rejection (p : Project) (scene : Scene) (fuel : Nat)
    (h1 : ∃ a ∈ p.actions, hasFirst a = true) (h2 : ∃ a ∈ p.actions, hasLast a = true) :
    isGseErr (program_src p scene fuel) = false := by
  unfold program_src add_logic_to_loop get_actions_cache
  obtain ⟨f, hf⟩ := markerFold_exists p.actions none h1
  obtain ⟨l, hl⟩ := markerFold_exists p.actions none h2
  rw [hf, hl]
  exact add_logic_loop_no_gse _ _ fuel f

theorem C2_amended_no_rejection_witness :
    isGseErr (program_src exProjTwoFirst emptyScene 1) = false :=
  C2_amended_no_rejection exProjTwoFirst emptyScene 1 (by decide) (by decide)

/-- C8 counterexample: a graph whose `outputs[0]` chain does not visit every
action (an orphan outside the chain) is not rejected — the Emitter terminates
and emits the chain's text, silently skipping the orphan. -/
theorem C8_counterexample :
    chainCoversAll exProjOrphan = false ∧
    program_src exProjOrphan emptyScene 1 = .ok [Stmt.actionCall "x" "m" "a"] :=
  ⟨rfl, by decide⟩

theorem cyc_step_a (n : Nat) :
    add_logic_loop exCycleCache "d" (n + 1) "a" =
      match add_logic_loop exCycleCache "d" n "b" with
      | .ok s => .ok (Stmt.actionCall "x" "m" "a" :: s)
      | e => e := by rfl

theorem cyc_step_b (n : Nat) :
    add_logic_loop exCycleCache "d" (n + 1) "b" =
      match add_logic_loop exCycleCache "d" n "a" with
      | .ok s => .ok (Stmt.actionCall "x" "n" "b" :: s)
      | e => e := by rfl

theorem cyc_timeout : ∀ n : Nat,
    add_logic_loop exCycleCache "d" n "a" = .timeout ∧
    add_logic_loop exCycleCache "d" n "b" = .timeout := by
  intro n
  induction n with
  | zero => exact ⟨rfl, rfl⟩
  | succ k ih =>
    refine ⟨?_, ?_⟩
    · rw [cyc_step_a, ih.2]
    · rw [cyc_step_b, ih.1]

/-! ## Inspector lemmas (for C5 and C6) -/

theorem lookup_some_containsKey {α : Type} :
    ∀ (l : List (String × α)) (k : String) (v : α),
      lookupKV l k = some v → containsKey l k = true := by
  intro l
  induction l with
  | nil => intro k v h; simp [lookupKV] at h
  | cons p rest ih =>
    intro k v h
    by_cases hp : p.1 = k
    · simp [containsKey, hp]
    · simp only [lookupKV, if_neg hp] at h
      simp only [containsKey, if_neg hp]
      exact ih k v h

theorem containsKey_lookup_some {α : Type} :
    ∀ (l : List (String × α)) (k : String),
      containsKey l k = true → ∃ v, lookupKV l k = some v := by
  intro l
  induction l with
  | nil => intro k h; simp [containsKey] at h
  | cons p rest ih =>
    intro k h
    by_cases hp : p.1 = k
    · exact ⟨p.2, by simp [lookupKV, hp]⟩
    · simp only [containsKey, if_neg hp] at h
      obtain ⟨v, hv⟩ := ih k h
      exact ⟨v, by simp [lookupKV, if_neg hp, hv]⟩

theorem containsKey_overwrite {α : Type} :
    ∀ (l : List (String × α)) (k : String) (v : α) (n : String),
      containsKey (l.map (fun p => if p.1 = k then (k, v) else p)) n = containsKey l n := by
  intro l
  induction l with
  | nil => intro k v n; rfl
  | cons p rest ih =>
    intro k v n
    by_cases hp : p.1 = k
    · by_cases hn : k = n
      · simp [containsKey, hp, hn]
      · simp [containsKey, hp, hn, ih, hp ▸ hn]
    · simp [containsKey, hp, ih]

theorem containsKey_append {α : Type} :
    ∀ (l1 l2 : List (String × α)) (n : String),
      containsKey (l1 ++ l2) n = (containsKey l1 n || containsKey l2 n) := by
  intro l1
  induction l1 with
  | nil => intro l2 n; rfl
  | cons p rest ih =>
    intro l2 n
    by_cases hp : p.1 = n
    · simp [containsKey, hp]
    · simp [containsKey, hp, ih]

theorem containsKey_insertKV {α : Type} (l : List (String × α)) (k : String) (v : α)
    (n : String) :
    containsKey (insertKV l k v) n = true ↔ (n = k ∨ containsKey l n = true) := by
  unfold insertKV
  by_cases hc : containsKey l k
  · rw [if_pos hc, containsKey_overwrite]
    constructor
    · intro h; exact Or.inr h
    · rintro (rfl | h)
      · exact hc
      · exact h
  · rw [if_neg hc, containsKey_append]
    constructor
    · intro h
      rw [Bool.or_eq_true] at h
      rcases h with h1 | h2
      · exact Or.inr h1
      · by_cases hk : k = n
        · exact Or.inl hk.symm
        · simp [containsKey, hk] at h2
    · rintro (rfl | h)
      · simp [containsKey]
      · simp [h]

theorem buildAttr_mem :
    ∀ (body : List ClsStmt) (t table : List (String × ActionMetadata)),
      buildActionAttr body t = .ok table → ∀ n : String,
      (containsKey table n = true ↔ n ∈ metaNames body ∨ containsKey t n = true) := by
  intro body
  induction body with
  | nil =>
    intro t table h n
    simp only [buildActionAttr] at h
    injection h with h
    subst h
    simp [metaNames]
  | cons s rest ih =>
    intro t table h n
    cases s with
    | actionMeta m kwargs =>
      simp only [buildActionAttr] at h
      split at h
      · exact absurd h (by simp)
      · rename_i meta hmeta
        have hmem := ih (insertKV t m meta) table h n
        rw [hmem, containsKey_insertKV]
        simp only [metaNames, List.filterMap_cons]
        simp only [List.mem_cons]
        tauto
    | funcDef fd =>
      simp only [buildActionAttr] at h
      have hmem := ih t table h n
      rw [hmem]
      simp only [metaNames, List.filterMap_cons]
    | otherStmt =>
      simp only [buildActionAttr] at h
      have hmem := ih t table h n
      rw [hmem]
      simp only [metaNames, List.filterMap_cons]

theorem mem_funcDefsOf (fd : PyFunctionDef) (body : List ClsStmt) :
    fd ∈ funcDefsOf body ↔ ClsStmt.funcDef fd ∈ body := by
  unfold funcDefsOf
  rw [List.mem_filterMap]
  constructor
  · rintro ⟨s, hs, he⟩
    cases s with
    | actionMeta m kwargs => simp at he
    | funcDef fd2 =>
      simp only [Option.some.injEq] at he
      subst he
      exact hs
    | otherStmt => simp at he
  · intro h
    exact ⟨ClsStmt.funcDef fd, h, rfl⟩

theorem processArgs_ok_no_unannotated :
    ∀ (args : List PyArg) (r : List ObjectActionArgs), processArgs args = .ok r →
      ∀ a ∈ args, a.name ≠ "self" → a.annot ≠ none := by
  intro args
  induction args with
  | nil => intro r h a ha; simp at ha
  | cons a0 rest ih =>
    intro r h a ha hname
    simp only [processArgs] at h
    split at h
    · rename_i hself
      rcases List.mem_cons.mp ha with rfl | hm
      · exact absurd hself hname
      · exact ih r h a hm hname
    · split at h
      · exact absurd h (by simp)
      · rename_i ty hty
        split at h
        · exact absurd h (by simp)
        · rcases List.mem_cons.mp ha with rfl | hm
          · simp [hty]
          · rename_i args2 hargs2
            exact ih args2 hargs2 a hm hname

theorem processArgs_ok_names :
    ∀ (args : List PyArg) (r : List ObjectActionArgs), processArgs args = .ok r →
      r.map (fun g => g.name) = nonSelfNames args := by
  intro args
  induction args with
  | nil =>
    intro r h
    simp only [processArgs] at h
    injection h with h
    subst h
    simp [nonSelfNames]
  | cons a0 rest ih =>
    intro r h
    simp only [processArgs] at h
    split at h
    · rename_i hself
      rw [ih r h]
      simp [nonSelfNames, hself]
    · rename_i hself
      split at h
      · exact absurd h (by simp)
      · rename_i ty hty
        split at h
        · exact absurd h (by simp)
        · rename_i args2 hargs2
          injection h with h
          subst h
          simp only [List.map_cons]
          rw [ih args2 hargs2]
          simp [nonSelfNames, hself]

theorem collect_ok_facts (table : List (String × ActionMetadata)) :
    ∀ (body : List ClsStmt) (ret : List ObjectAction),
      collectActions table body = .ok ret →
      ∀ fd, ClsStmt.funcDef fd ∈ body →
        ((markerOf fd.decorators = true ↔ containsKey table fd.name = true) ∧
         (markerOf fd.decorators = true → ∃ r, processArgs fd.args = .ok r)) := by
  intro body
  induction body with
  | nil => intro ret h fd hfd; simp at hfd
  | cons s rest ih =>
    intro ret h fd hfd
    cases s with
    | actionMeta m kwargs =>
      simp only [collectActions] at h
      rcases List.mem_cons.mp hfd with he | hm
      · exact absurd he (by simp)
      · exact ih ret h fd hm
    | otherStmt =>
      simp only [collectActions] at h
      rcases List.mem_cons.mp hfd with he | hm
      · exact absurd he (by simp)
      · exact ih ret h fd hm
    | funcDef fd0 =>
      simp only [collectActions] at h
      split at h
      · rename_i hm0
        split at h
        · exact absurd h (by simp)
        · rename_i meta hl
          split at h
          · exact absurd h (by simp)
          · rename_i args hp
            split at h
            · exact absurd h (by simp)
            · rename_i ret2 hc
              rcases List.mem_cons.mp hfd with he | hmem
              · have hfd0 : fd0 = fd := by injection he with h2; exact h2.symm
                subst hfd0
                refine ⟨⟨fun _ => lookup_some_containsKey table fd0.name meta hl,
                         fun _ => hm0⟩, fun _ => ⟨args, hp⟩⟩
              · exact ih ret2 hc fd hmem
      · rename_i hm0
        split at h
        · exact absurd h (by simp)
        · rename_i hck
          rcases List.mem_cons.mp hfd with he | hmem
          · have hfd0 : fd0 = fd := by injection he with h2; exact h2.symm
            subst hfd0
            constructor
            · constructor
              · intro hmk; exact absurd hmk hm0
              · intro hc2; exact absurd hc2 (by simpa using hck)
            · intro hmk; exact absurd hmk hm0
          · exact ih ret h fd hmem

theorem collect_ok_shape (table : List (String × ActionMetadata)) :
    ∀ (body : List ClsStmt) (ret : List ObjectAction),
      collectActions table body = .ok ret →
      ret.map (fun oa => (oa.name, oa.action_args.map (fun g => g.name))) =
        ((funcDefsOf body).filter (fun fd => markerOf fd.decorators)).map
          (fun fd => (fd.name, nonSelfNames fd.args)) := by
  intro body
  induction body with
  | nil =>
    intro ret h
    simp only [collectActions] at h
    injection h with h
    subst h
    simp [funcDefsOf]
  | cons s rest ih =>
    intro ret h
    cases s with
    | actionMeta m kwargs =>
      simp only [collectActions] at h
      rw [ih ret h]
      simp [funcDefsOf, List.filterMap_cons]
    | otherStmt =>
      simp only [collectActions] at h
      rw [ih ret h]
      simp [funcDefsOf, List.filterMap_cons]
    | funcDef fd0 =>
      simp only [collectActions] at h
      split at h
      · rename_i hm0
        split at h
        · exact absurd h (by simp)
        · rename_i meta hl
          split at h
          · exact absurd h (by simp)
          · rename_i args hp
            split at h
            · exact absurd h (by simp)
            · rename_i ret2 hc
              injection h with h
              subst h
              have hnames := processArgs_ok_names fd0.args args hp
              have htail := ih ret2 hc
              simp only [List.map_cons, funcDefsOf, List.filterMap_cons] at htail ⊢
              simp [List.filter_cons, hm0, hnames, htail]
      · rename_i hm0
        split at h
        · exact absurd h (by simp)
        · rename_i hck
          rw [ih ret h]
          simp [funcDefsOf, List.filterMap_cons, hm0]

/-- C8 (amended): the Emitter performs no chain-coverage check and is not a
total function.  When the chain from the `FIRST`-rooted action reaches the
`LAST`-marked one, text is emitted even though orphan actions are skipped;
when the chain cycles without reaching the `LAST`-marked action,
`add_logic_to_loop` never terminates (every iteration bound is exhausted). -/
theorem C8_amended_no_coverage_check :
    (∀ fuel : Nat, add_logic_to_loop exProjCycle fuel = .timeout) ∧
    chainCoversAll exProjOrphan = false ∧
    program_src exProjOrphan emptyScene 1 = .ok [Stmt.actionCall "x" "m" "a"] := by
  refine ⟨?_, rfl, by decide⟩
  intro fuel
  exact (cyc_timeout fuel).1

theorem get_object_actions_eq (body : List TopStmt) (cd : PyClassDef)
    (h : object_cls_def body = .ok cd) :
    get_object_actions body =
      (match buildActionAttr cd.body [] with
       | .error e => .error e
       | .ok table => collectActions table cd.body) := by
  unfold get_object_actions
  rw [h]

/-- C5 counterexample: a metadata-table entry naming a method that does not
exist in the class at all is silently ignored by `get_object_actions` — no
error is raised, refuting the claim's "including an entry naming a method
that does not exist" part. -/
theorem C5_counterexample :
    get_object_actions exBodyGhostMeta = .ok [] ∧
    metaNames exClsGhostMeta.body = ["foo"] ∧
    funcDefsOf exClsGhostMeta.body = [] :=
  ⟨by rfl, by rfl, by rfl⟩

/-- C5 (amended): `get_object_actions` raises a hard error in both mismatch
directions for methods that exist in the class — a method carrying the
`action` marker without a metadata entry, and an existing method with a
metadata entry but no marker; a metadata entry naming a method absent from
the class is silently ignored. -/
theorem C5_mismatch_errors (body : List TopStmt) (cd : PyClassDef)
    (hcd : object_cls_def body = .ok cd)
    (hbad : ∃ fd ∈ funcDefsOf cd.body,
      (markerOf fd.decorators = true ∧ fd.name ∉ metaNames cd.body) ∨
      (markerOf fd.decorators = false ∧ fd.name ∈ metaNames cd.body)) :
    isErrE (get_object_actions body) = true := by
  obtain ⟨fd, hfd, hmis⟩ := hbad
  have hfd2 : ClsStmt.funcDef fd ∈ cd.body := (mem_funcDefsOf fd cd.body).mp hfd
  rw [get_object_actions_eq body cd hcd]
  cases hb : buildActionAttr cd.body [] with
  | error e => rfl
  | ok table =>
    cases hc : collectActions table cd.body with
    | error e =>
      show isErrE (collectActions table cd.body) = true
      rw [hc]
      rfl
    | ok ret =>
      exfalso
      have hiff := (collect_ok_facts table cd.body ret hc fd hfd2).1
      have hmem := buildAttr_mem cd.body [] table hb fd.name
      rcases hmis with ⟨hm, hnm⟩ | ⟨hm, hnm⟩
      · rcases hmem.mp (hiff.mp hm) with h1 | h2
        · exact hnm h1
        · simp [containsKey] at h2
      · have hck : containsKey table fd.name = true := hmem.mpr (Or.inl hnm)
        have := hiff.mpr hck
        rw [hm] at this
        exact Bool.false_ne_true this

theorem C5_mismatch_errors_witness :
    isErrE (get_object_actions exBodyNoMeta) = true :=
  C5_mismatch_errors exBodyNoMeta exClsNoMeta (by rfl) (by decide)

/-- C6: for every action-marked method of the single class,
`get_object_actions` errors when some non-receiver parameter lacks a type
annotation; on success it emits exactly one `ObjectAction` per marked method,
in declaration order, whose argument list has one entry per non-receiver
parameter (the receiver `self` excluded), in declaration order. -/
theorem C6_annotation_requirement (body : List TopStmt) (cd : PyClassDef)
    (hcd : object_cls_def body = .ok cd) :
    ((∃ fd ∈ funcDefsOf cd.body, markerOf fd.decorators = true ∧
        ∃ a ∈ fd.args, a.name ≠ "self" ∧ a.annot = none) →
      isErrE (get_object_actions body) = true) ∧
    (∀ ret, get_object_actions body = .ok ret →
      ret.map (fun oa => (oa.name, oa.action_args.map (fun g => g.name))) =
        ((funcDefsOf cd.body).filter (fun fd => markerOf fd.decorators)).map
          (fun fd => (fd.name, nonSelfNames fd.args))) := by
  have heq := get_object_actions_eq body cd hcd
  constructor
  · rintro ⟨fd, hfd, hm, a, ha, hname, hannot⟩
    rw [heq]
    cases hb : buildActionAttr cd.body [] with
    | error e => rfl
    | ok table =>
      cases hc : collectActions table cd.body with
      | error e =>
        show isErrE (collectActions table cd.body) = true
        rw [hc]
        rfl
      | ok ret =>
        exfalso
        obtain ⟨r, hr⟩ :=
          (collect_ok_facts table cd.body ret hc fd ((mem_funcDefsOf fd cd.body).mp hfd)).2 hm
        exact absurd hannot (processArgs_ok_no_unannotated fd.args r hr a ha hname)
  · intro ret hret
    rw [heq] at hret
    cases hb : buildActionAttr cd.body [] with
    | error e =>
      rw [hb] at hret
      exact absurd hret (by simp)
    | ok table =>
      rw [hb] at hret
      exact collect_ok_shape table cd.body ret hret

theorem C6_annotation_requirement_witness :
    get_object_actions exBodyGood = .ok exRetGood ∧
    exRetGood.map (fun oa => (oa.name, oa.action_args.map (fun g => g.name))) =
      ((funcDefsOf exClsGood.body).filter (fun fd => markerOf fd.decorators)).map
        (fun fd => (fd.name, nonSelfNames fd.args)) :=
  ⟨by rfl, (C6_annotation_requirement exBodyGood exClsGood (by rfl)).2 exRetGood (by rfl)⟩

/-! ## Recoverer prefix lemma (for C7) -/

theorem recover_append (st : RecState) (s₁ s₂ : List Stmt) (hne : s₂ ≠ []) :
    recoverAux st (s₁ ++ s₂) =
      match recoverPre st s₁ with
      | .ok st' => recoverAux st' s₂
      | e => e := by
  induction s₁ generalizing st with
  | nil => simp [recoverPre]
  | cons s rest ih =>
    have hne2 : (rest ++ s₂).isEmpty = false := by
      cases s₂ with
      | nil => exact absurd rfl hne
      | cons b bs => cases rest <;> simp [List.isEmpty]
    show (match recStep st s (rest ++ s₂).isEmpty with
          | .ok st' => recoverAux st' (rest ++ s₂)
          | e => e) =
         (match (match recStep st s false with
                 | .ok st' => recoverPre st' rest
                 | e => e) with
          | .ok st' => recoverAux st' s₂
          | e => e)
    rw [hne2]
    cases hstep : recStep st s false with
    | ok st1 => exact ih st1
    | err msg c => rfl
    | pyerr msg c => rfl

/-- C7: program text whose loop body references the same action id twice is
rejected by the Recoverer with a duplicate-action error, and the cache at the
failure is exactly the cache produced by the statements preceding the
duplicate occurrence (the first occurrence included); no later statement has
touched it. -/
theorem C7_duplicate_detection (p : Project) (pre rest : List Stmt)
    (o m aid : String) (st' : RecState)
    (hpre : recoverPre (initState p) pre = .ok st') (hdup : aid ∈ st'.found) :
    get_logic_from_source (pre ++ Stmt.actionCall o m aid :: rest) p =
      .err ("Duplicate action: " ++ aid ++ ".") st'.cache := by
  unfold get_logic_from_source
  rw [recover_append (initState p) pre _ (List.cons_ne_nil _ _), hpre]
  show (match recStep st' (Stmt.actionCall o m aid) rest.isEmpty with
        | .ok st2 => recoverAux st2 rest
        | e => e) = _
  simp only [recStep, if_pos hdup]

theorem C7_duplicate_detection_witness :
    get_logic_from_source
        [Stmt.actionCall "x" "m" "a", Stmt.actionCall "x" "m" "a"] exProjC7 =
      .err "Duplicate action: a." exStC7.cache :=
  C7_duplicate_detection exProjC7 [Stmt.actionCall "x" "m" "a"] []
    "x" "m" "a" exStC7 (by rfl) (by decide)

/-! ## Cache-as-pointwise-modification lemmas -/

theorem updAct_cacheMod (l : List Action) (h : String → Action → Action) (k : String)
    (f : Action → Action) :
    updAct (cacheMod l h) k f =
      cacheMod l (fun i a => if i = k then f (h i a) else h i a) := by
  unfold updAct cacheMod
  rw [List.map_map]
  apply List.map_congr_left
  intro a _
  by_cases ha : a.id = k <;> simp [ha]

theorem cacheMod_congr (l : List Action) (h h2 : String → Action → Action)
    (he : ∀ a ∈ l, h a.id a = h2 a.id a) :
    cacheMod l h = cacheMod l h2 := by
  unfold cacheMod
  apply List.map_congr_left
  intro a ha
  rw [he a ha]

theorem nodup_map_inj {l : List Action} (hnd : (l.map (fun a => a.id)).Nodup)
    {a b : Action} (ha : a ∈ l) (hb : b ∈ l) (hid : a.id = b.id) : a = b := by
  induction l with
  | nil => simp at ha
  | cons x rest ih =>
    rw [List.map_cons, List.nodup_cons] at hnd
    rcases List.mem_cons.mp ha with rfl | ha2
    · rcases List.mem_cons.mp hb with rfl | hb2
      · rfl
      · have hmem : b.id ∈ rest.map (fun a => a.id) := List.mem_map_of_mem _ hb2
        rw [← hid] at hmem
        exact absurd hmem hnd.1
    · rcases List.mem_cons.mp hb with rfl | hb2
      · have hmem : a.id ∈ rest.map (fun a => a.id) := List.mem_map_of_mem _ ha2
        rw [hid] at hmem
        exact absurd hmem hnd.1
      · exact ih hnd.2 ha2 hb2

theorem lookup_cacheMod :
    ∀ (l : List Action) (h : String → Action → Action) (a : Action),
      a ∈ l → (l.map (fun x => x.id)).Nodup →
      lookupKV (cacheMod l h) a.id = some (h a.id a) := by
  intro l
  induction l with
  | nil => intro h a ha; simp at ha
  | cons x rest ih =>
    intro h a ha hnd
    rw [List.map_cons, List.nodup_cons] at hnd
    by_cases hx : x.id = a.id
    · have hax : x = a := by
        rcases List.mem_cons.mp ha with rfl | h2
        · rfl
        · have hmem : a.id ∈ rest.map (fun y => y.id) := List.mem_map_of_mem _ h2
          rw [← hx] at hmem
          exact absurd hmem hnd.1
      subst hax
      simp [cacheMod, lookupKV]
    · have ha2 : a ∈ rest := by
        rcases List.mem_cons.mp ha with rfl | h2
        · exact absurd rfl hx
        · exact h2
      simp only [cacheMod, List.map_cons, lookupKV, if_neg hx]
      exact ih h a ha2 hnd.2

theorem buildCache_aux :
    ∀ (l : List Action) (acc : Cache),
      (∀ a ∈ l, containsKey acc a.id = false) → (l.map (fun a => a.id)).Nodup →
      l.foldl (fun c a => insertKV c a.id a) acc = acc ++ l.map (fun a => (a.id, a)) := by
  intro l
  induction l with
  | nil => intro acc _ _; simp
  | cons a rest ih =>
    intro acc hacc hnd
    rw [List.map_cons, List.nodup_cons] at hnd
    simp only [List.foldl_cons]
    have h1 : insertKV acc a.id a = acc ++ [(a.id, a)] := by
      unfold insertKV
      rw [hacc a (List.mem_cons_self a rest)]
      simp
    rw [h1, ih (acc ++ [(a.id, a)]) ?_ hnd.2]
    · simp
    · intro b hb
      rw [containsKey_append]
      have h2 : containsKey acc b.id = false := hacc b (List.mem_cons_of_mem a hb)
      have h3 : containsKey [(a.id, a)] b.id = false := by
        have hne : a.id ≠ b.id := fun he => hnd.1 (he ▸ List.mem_map_of_mem _ hb)
        simp [containsKey, hne]
      rw [h2, h3]
      rfl

theorem buildCache_eq (l : List Action) (hnd : (l.map (fun a => a.id)).Nodup) :
    buildCache l = cacheMod l (fun _ a => a) := by
  unfold buildCache cacheMod
  rw [buildCache_aux l [] (fun a _ => rfl) hnd]
  simp

/-! ## Chain-structure helpers -/

theorem mem_of_getLast_eq {α : Type} :
    ∀ (l : List α) (x : α), l.getLast? = some x → x ∈ l := by
  intro l
  induction l with
  | nil => intro x h; simp at h
  | cons a rest ih =>
    intro x h
    cases rest with
    | nil =>
      simp only [List.getLast?_singleton, Option.some.injEq] at h
      subst h
      exact List.mem_cons_self _ []
    | cons b bs =>
      rw [List.getLast?_cons_cons] at h
      exact List.mem_cons_of_mem a (ih x h)

theorem chain_inputs :
    ∀ (l : List Action) (c : Action), List.Chain' chainR (c :: l) →
      ∀ x ∈ l, ∃ y ∈ c :: l, x.inputs = [⟨y.id⟩] := by
  intro l
  induction l with
  | nil => intro c _ x hx; simp at hx
  | cons b rest ih =>
    intro c hc x hx
    rw [List.chain'_cons] at hc
    rcases List.mem_cons.mp hx with rfl | hx2
    · exact ⟨c, List.mem_cons_self c _, hc.1.2⟩
    · obtain ⟨y, hy, hxy⟩ := ih b hc.2 x hx2
      exact ⟨y, List.mem_cons_of_mem c hy, hxy⟩

theorem chain_outputs :
    ∀ (l : List Action), List.Chain' chainR l →
      ∀ x ∈ l, l.getLast? = some x ∨ ∃ y ∈ l, x.outputs = [⟨y.id⟩] := by
  intro l
  induction l with
  | nil => intro _ x hx; simp at hx
  | cons a rest ih =>
    intro hc x hx
    cases rest with
    | nil =>
      rcases List.mem_cons.mp hx with rfl | h2
      · left; rfl
      · simp at h2
    | cons b bs =>
      rw [List.chain'_cons] at hc
      rcases List.mem_cons.mp hx with rfl | h2
      · right; exact ⟨b, List.mem_cons_of_mem _ (List.mem_cons_self b bs), hc.1.1⟩
      · rcases ih hc.2 x h2 with hl | ⟨y, hy, hxy⟩
        · left; rw [List.getLast?_cons_cons]; exact hl
        · right; exact ⟨y, List.mem_cons_of_mem _ hy, hxy⟩

theorem typeOk_split (a : Action) (h : typeOk a = true) :
    ∃ o m, splitType a.type = some (o, m) ∧ ' ' ∉ (convert_cc o).data := by
  unfold typeOk at h
  cases hs : splitType a.type with
  | none => rw [hs] at h; simp at h
  | some pr =>
    obtain ⟨o, m⟩ := pr
    rw [hs] at h
    refine ⟨o, m, rfl, ?_⟩
    intro hmem
    simp only [Bool.not_eq_true'] at h
    have := List.elem_eq_true_of_mem hmem
    rw [List.contains] at h
    rw [this] at h
    exact absurd h (by decide)

theorem fix_eq_convert (o : String) (h : ' ' ∉ (convert_cc o).data) :
    fix_object_name o = convert_cc o := by
  unfold fix_object_name pyReplaceSpaceByUnderscore
  rw [String.ext_iff]
  show (convert_cc o).data.map (fun c => if c = ' ' then '_' else c) = (convert_cc o).data
  apply (map_eq_self_iff_of_mem _).mpr
  intro c hc
  have hne : ¬(c = ' ') := fun e => h (e ▸ hc)
  simp [hne]

theorem markerFold_filter_singleton {pred : Action → Bool} :
    ∀ (l : List Action) (acc : Option String) (w : Action),
      l.filter pred = [w] → markerFold pred acc l = some w.id := by
  intro l
  induction l with
  | nil => intro acc w h; simp at h
  | cons a rest ih =>
    intro acc w h
    by_cases ha : pred a = true
    · rw [List.filter_cons_of_pos ha] at h
      injection h with h1 h2
      subst h1
      simp only [markerFold, ha, if_true]
      apply markerFold_eq_acc
      intro b hb
      have := List.filter_eq_nil.mp h2 b hb
      simpa using this
    · rw [List.filter_cons_of_neg (by simpa using ha)] at h
      simp only [markerFold, ha, if_false]
      exact ih acc w h

theorem filter_eq_singleton_of_unique {α : Type} (p : α → Bool) :
    ∀ (l : List α) (w : α), w ∈ l → p w = true →
      (∀ x ∈ l, p x = true → x = w) → l.Nodup →
      l.filter p = [w] := by
  intro l
  induction l with
  | nil => intro w hw; simp at hw
  | cons a rest ih =>
    intro w hw hpw huniq hnd
    rw [List.nodup_cons] at hnd
    by_cases hpa : p a = true
    · have haw : a = w := huniq a (List.mem_cons_self a rest) hpa
      subst haw
      rw [List.filter_cons_of_pos hpa]
      have hrest : rest.filter p = [] := by
        rw [List.filter_eq_nil]
        intro x hx hpx
        have hxw := huniq x (List.mem_cons_of_mem a hx) hpx
        subst hxw
        exact absurd hx hnd.1
      rw [hrest]
    · have hw2 : w ∈ rest := by
        rcases List.mem_cons.mp hw with rfl | h2
        · exact absurd hpw hpa
        · exact h2
      rw [List.filter_cons_of_neg (by simpa using hpa)]
      exact ih w hw2 hpw (fun x hx hpx => huniq x (List.mem_cons_of_mem a hx) hpx) hnd.2

/-! ## Forward computation of a successful Recoverer step -/

theorem recStep_ok_none (st : RecState) (objId method aid : String) (action : Action)
    (b : Bool) (o m : String)
    (hnone : st.lastId = none)
    (hnf : aid ∉ st.found)
    (hlook : lookupKV st.cache aid = some action)
    (hsplit : splitType action.type = some (o, m))
    (hobj : convert_cc o = objId) (hmeth : m = method) :
    recStep st (Stmt.actionCall objId method aid) b =
      .ok ⟨(let c1 := updAct st.cache aid
              (fun a => { a with inputs := [⟨FIRST⟩], outputs := [] })
            if b then updAct c1 aid (fun a => { a with outputs := a.outputs ++ [⟨LAST⟩] })
            else c1),
           aid :: st.found, some action.id⟩ := by
  have hcond : ¬(convert_cc o ≠ objId ∨ m ≠ method) := by
    push_neg
    exact ⟨hobj, hmeth⟩
  simp only [recStep, if_neg hnf, hlook, hsplit, if_neg hcond, hnone]

theorem recStep_ok_some (st : RecState) (objId method aid lid : String) (action : Action)
    (b : Bool) (o m : String)
    (hsome : st.lastId = some lid)
    (hnf : aid ∉ st.found)
    (hlook : lookupKV st.cache aid = some action)
    (hsplit : splitType action.type = some (o, m))
    (hobj : convert_cc o = objId) (hmeth : m = method) :
    recStep st (Stmt.actionCall objId method aid) b =
      .ok ⟨(let c1 := updAct st.cache aid
              (fun a => { a with inputs := [⟨lid⟩], outputs := [] })
            let c2 := updAct c1 lid (fun a => { a with outputs := a.outputs ++ [⟨action.id⟩] })
            if b then updAct c2 aid (fun a => { a with outputs := a.outputs ++ [⟨LAST⟩] })
            else c2),
           aid :: st.found, some action.id⟩ := by
  have hcond : ¬(convert_cc o ≠ objId ∨ m ≠ method) := by
    push_neg
    exact ⟨hobj, hmeth⟩
  simp only [recStep, if_neg hnf, hlook, hsplit, if_neg hcond, hsome]

/-! ## One-step equations for the Emitter loop -/

theorem add_logic_loop_succ (cache : Cache) (lastId : String) (fuel : Nat) (cur : String) :
    add_logic_loop cache lastId (fuel + 1) cur =
      match lookupKV cache cur with
      | none => .pyerr "KeyError"
      | some act =>
        match splitType act.type with
        | none => .pyerr "ValueError"
        | some (acObj, acType) =>
          let stmt := Stmt.actionCall (fix_object_name acObj) acType act.id
          if act.id = lastId then .ok [stmt]
          else
            match act.outputs with
            | [] => .pyerr "IndexError"
            | out :: _ =>
              match add_logic_loop cache lastId fuel out.default with
              | .ok stmts => .ok (stmt :: stmts)
              | e => e := by
  rfl

theorem add_logic_loop_last (cache : Cache) (lastId : String) (fuel : Nat) (cur : String)
    (a : Action) (o m : String)
    (hlook : lookupKV cache cur = some a)
    (hsplit : splitType a.type = some (o, m))
    (heq : a.id = lastId) :
    add_logic_loop cache lastId (fuel + 1) cur =
      .ok [Stmt.actionCall (fix_object_name o) m a.id] := by
  rw [add_logic_loop_succ, hlook]
  simp only [hsplit, if_pos heq]

theorem add_logic_loop_cons (cache : Cache) (lastId : String) (fuel : Nat) (cur : String)
    (a : Action) (o m : String) (nxt : ActionIo) (res : List Stmt)
    (hlook : lookupKV cache cur = some a)
    (hsplit : splitType a.type = some (o, m))
    (hne : a.id ≠ lastId)
    (hout : a.outputs = [nxt])
    (hrec : add_logic_loop cache lastId fuel nxt.default = .ok res) :
    add_logic_loop cache lastId (fuel + 1) cur =
      .ok (Stmt.actionCall (fix_object_name o) m a.id :: res) := by
  rw [add_logic_loop_succ, hlook]
  simp only [hsplit, if_neg hne, hout, hrec]

/-! ## The Emitter walks exactly the canonical chain -/

theorem emit_chain (l : List Action) (hnd : (l.map (fun x => x.id)).Nodup) (cl : Action) :
    ∀ (rest : List Action) (a : Action),
      (∀ x ∈ a :: rest, x ∈ l) →
      List.Chain' chainR (a :: rest) →
      ((a :: rest).map (fun x => x.id)).Nodup →
      (a :: rest).getLast? = some cl →
      (∀ x ∈ a :: rest, typeOk x = true) →
      add_logic_loop (cacheMod l (fun _ x => x)) cl.id (rest.length + 1) a.id =
        .ok ((a :: rest).map mkStmt) := by
  intro rest
  induction rest with
  | nil =>
    intro a hmem hchain hndc hlast htype
    have hacl : a = cl := by
      simp only [List.getLast?_singleton, Option.some.injEq] at hlast
      exact hlast
    obtain ⟨o, m, hsplit, hsp⟩ := typeOk_split a (htype a (List.mem_cons_self a []))
    have hlook : lookupKV (cacheMod l (fun _ x => x)) a.id = some a :=
      lookup_cacheMod l (fun _ x => x) a (hmem a (List.mem_cons_self a [])) hnd
    rw [show ([] : List Action).length + 1 = 0 + 1 from rfl,
        add_logic_loop_last _ _ _ _ a o m hlook hsplit (by rw [hacl])]
    simp [mkStmt, hsplit]
  | cons b rest' ih =>
    intro a hmem hchain hndc hlast htype
    obtain ⟨o, m, hsplit, hsp⟩ := typeOk_split a (htype a (List.mem_cons_self a _))
    have hlook : lookupKV (cacheMod l (fun _ x => x)) a.id = some a :=
      lookup_cacheMod l (fun _ x => x) a (hmem a (List.mem_cons_self a _)) hnd
    have hclmem : cl ∈ b :: rest' := by
      rw [List.getLast?_cons_cons] at hlast
      exact mem_of_getLast_eq _ cl hlast
    rw [List.map_cons, List.nodup_cons] at hndc
    have hane : a.id ≠ cl.id := by
      intro he
      exact hndc.1 (he ▸ List.mem_map_of_mem _ hclmem)
    rw [List.chain'_cons] at hchain
    have hout : a.outputs = [⟨b.id⟩] := hchain.1.1
    have hih := ih b (fun x hx => hmem x (List.mem_cons_of_mem a hx)) hchain.2
      hndc.2
      (by rw [List.getLast?_cons_cons] at hlast; exact hlast)
      (fun x hx => htype x (List.mem_cons_of_mem a hx))
    rw [show (b :: rest').length + 1 = (rest'.length + 1) + 1 from by simp,
        add_logic_loop_cons _ _ _ _ a o m ⟨b.id⟩ _ hlook hsplit hane hout hih]
    simp [mkStmt, hsplit]

theorem action_eta (a : Action) : Action.mk a.id a.type a.inputs a.outputs = a := rfl

theorem recoverAux_cons (st : RecState) (s : Stmt) (rest : List Stmt) :
    recoverAux st (s :: rest) =
      match recStep st s rest.isEmpty with
      | .ok st' => recoverAux st' rest
      | e => e := rfl

/-! ## The Recoverer rebuilds exactly the canonical links (chain induction) -/

theorem rec_chain (l : List Action) (hnd : (l.map (fun x => x.id)).Nodup) (cl : Action)
    (hcl_out : cl.outputs = [⟨LAST⟩]) :
    ∀ (rest : List Action) (a prev : Action) (found : List String),
      (∀ x ∈ prev :: a :: rest, x ∈ l) →
      List.Chain' chainR (prev :: a :: rest) →
      ((prev :: a :: rest).map (fun x => x.id)).Nodup →
      (prev :: a :: rest).getLast? = some cl →
      (∀ x ∈ a :: rest, typeOk x = true) →
      (∀ x ∈ a :: rest, x.id ∉ found) →
      recoverAux
        ⟨cacheMod l (fun i x => if i = prev.id then { x with outputs := [] } else x),
         found, some prev.id⟩
        ((a :: rest).map mkStmt) =
      .ok ⟨cacheMod l (fun _ x => x),
           ((a :: rest).map (fun x => x.id)).reverse ++ found, some cl.id⟩ := by
  intro rest
  induction rest with
  | nil =>
    intro a prev found hmem hchain hndc hlast htype hfound
    have hacl : a = cl := by
      rw [List.getLast?_cons_cons] at hlast
      simp only [List.getLast?_singleton, Option.some.injEq] at hlast
      exact hlast
    obtain ⟨o, m, hsplit, hsp⟩ := typeOk_split a (htype a (List.mem_cons_self a []))
    have hfix := fix_eq_convert o hsp
    rw [List.map_cons, List.nodup_cons] at hndc
    have hne_pa : prev.id ≠ a.id := by
      intro he
      have hmm : a.id ∈ (a :: ([] : List Action)).map (fun x => x.id) :=
        List.mem_map_of_mem _ (List.mem_cons_self a [])
      rw [← he] at hmm
      exact hndc.1 hmm
    have hne_ap : a.id ≠ prev.id := fun h => hne_pa h.symm
    have hamem : a ∈ l := hmem a (List.mem_cons_of_mem prev (List.mem_cons_self a []))
    have hpmem : prev ∈ l := hmem prev (List.mem_cons_self prev _)
    have hlook : lookupKV
        (cacheMod l (fun i x => if i = prev.id then { x with outputs := [] } else x)) a.id
        = some a := by
      rw [lookup_cacheMod l _ a hamem hnd]
      simp [hne_ap]
    rw [List.chain'_cons] at hchain
    have hin : a.inputs = [⟨prev.id⟩] := hchain.1.2
    have hout2 : a.outputs = [⟨LAST⟩] := by rw [hacl]; exact hcl_out
    have hpout : prev.outputs = [⟨a.id⟩] := hchain.1.1
    have hstmt : mkStmt a = Stmt.actionCall (fix_object_name o) m a.id := by
      simp [mkStmt, hsplit]
    have hstep := recStep_ok_some
      ⟨cacheMod l (fun i x => if i = prev.id then { x with outputs := [] } else x),
       found, some prev.id⟩
      (fix_object_name o) m a.id prev.id a true o m rfl
      (hfound a (List.mem_cons_self a [])) hlook hsplit hfix.symm rfl
    simp only [] at hstep
    have hcache :
        updAct (updAct (updAct
            (cacheMod l (fun i x => if i = prev.id then { x with outputs := [] } else x))
            a.id (fun x => { x with inputs := [⟨prev.id⟩], outputs := [] }))
          prev.id (fun x => { x with outputs := x.outputs ++ [⟨a.id⟩] }))
          a.id (fun x => { x with outputs := x.outputs ++ [⟨LAST⟩] })
        = cacheMod l (fun _ x => x) := by
      rw [updAct_cacheMod, updAct_cacheMod, updAct_cacheMod]
      apply cacheMod_congr
      intro x hx
      by_cases h1 : x.id = a.id
      · have hxa : x = a := nodup_map_inj hnd hx hamem h1
        subst hxa
        rw [← hin, ← hout2]
        simp [hne_ap, action_eta]
      · by_cases h2 : x.id = prev.id
        · have hxp : x = prev := nodup_map_inj hnd hx hpmem h2
          subst hxp
          rw [← hpout]
          simp [h1, h2, action_eta]
        · simp [h1, h2]
    rw [hcache] at hstep
    simp only [List.map_cons, List.map_nil, recoverAux_cons, List.isEmpty_nil, hstmt, hstep]
    simp only [hacl]
    rfl
  | cons b rest' ih =>
    intro a prev found hmem hchain hndc hlast htype hfound
    obtain ⟨o, m, hsplit, hsp⟩ := typeOk_split a (htype a (List.mem_cons_self a _))
    have hfix := fix_eq_convert o hsp
    rw [List.map_cons, List.nodup_cons] at hndc
    have hne_pa : prev.id ≠ a.id := by
      intro he
      have hmm : a.id ∈ (a :: b :: rest').map (fun x => x.id) :=
        List.mem_map_of_mem _ (List.mem_cons_self a _)
      rw [← he] at hmm
      exact hndc.1 hmm
    have hne_ap : a.id ≠ prev.id := fun h => hne_pa h.symm
    have hamem : a ∈ l := hmem a (List.mem_cons_of_mem prev (List.mem_cons_self a _))
    have hpmem : prev ∈ l := hmem prev (List.mem_cons_self prev _)
    have hlook : lookupKV
        (cacheMod l (fun i x => if i = prev.id then { x with outputs := [] } else x)) a.id
        = some a := by
      rw [lookup_cacheMod l _ a hamem hnd]
      simp [hne_ap]
    rw [List.chain'_cons] at hchain
    have hin : a.inputs = [⟨prev.id⟩] := hchain.1.2
    have hpout : prev.outputs = [⟨a.id⟩] := hchain.1.1
    have hstmt : mkStmt a = Stmt.actionCall (fix_object_name o) m a.id := by
      simp [mkStmt, hsplit]
    have hstep := recStep_ok_some
      ⟨cacheMod l (fun i x => if i = prev.id then { x with outputs := [] } else x),
       found, some prev.id⟩
      (fix_object_name o) m a.id prev.id a false o m rfl
      (hfound a (List.mem_cons_self a _)) hlook hsplit hfix.symm rfl
    simp only [] at hstep
    have hcache :
        updAct (updAct
            (cacheMod l (fun i x => if i = prev.id then { x with outputs := [] } else x))
            a.id (fun x => { x with inputs := [⟨prev.id⟩], outputs := [] }))
          prev.id (fun x => { x with outputs := x.outputs ++ [⟨a.id⟩] })
        = cacheMod l (fun i x => if i = a.id then { x with outputs := [] } else x) := by
      rw [updAct_cacheMod, updAct_cacheMod]
      apply cacheMod_congr
      intro x hx
      by_cases h1 : x.id = a.id
      · have hxa : x = a := nodup_map_inj hnd hx hamem h1
        subst hxa
        rw [← hin]
        simp [hne_ap, action_eta]
      · by_cases h2 : x.id = prev.id
        · have hxp : x = prev := nodup_map_inj hnd hx hpmem h2
          subst hxp
          rw [← hpout]
          simp [h1, h2, action_eta]
        · simp [h1, h2]
    rw [hcache] at hstep
    have hfound' : ∀ x ∈ b :: rest', x.id ∉ a.id :: found := by
      intro x hx hmemf
      rcases List.mem_cons.mp hmemf with he | hf
      · have h3 := hndc.2
        rw [List.map_cons, List.nodup_cons] at h3
        exact h3.1 (he ▸ List.mem_map_of_mem (fun y => y.id) hx)
      · exact hfound x (List.mem_cons_of_mem a hx) hf
    have hih := ih b a (a.id :: found)
      (fun x hx => hmem x (List.mem_cons_of_mem prev hx))
      hchain.2 hndc.2
      (by rw [List.getLast?_cons_cons] at hlast; exact hlast)
      (fun x hx => htype x (List.mem_cons_of_mem a hx))
      hfound'
    simp only [List.map_cons]
    rw [recoverAux_cons, hstmt,
        show (mkStmt b :: List.map mkStmt rest').isEmpty = false from rfl, hstep]
    exact hih.trans (by simp [List.append_assoc])

/-- C1 counterexample: a Project/Scene pair satisfying invariants 1-4 whose
object id contains a space.  The Emitter emits text (binding the object to
`fix_object_name` of the id), but the Recoverer's cross-check compares
against `convert_cc` of the id, which differs, so recovery fails and the
original action set is not rebuilt. -/
theorem C1_counterexample :
    validProject exProjSpace exSceneSpace = true ∧
    program_src exProjSpace exSceneSpace 1 = .ok [Stmt.actionCall "my__obj" "move" "a"] ∧
    isErrR (get_logic_from_source [Stmt.actionCall "my__obj" "move" "a"] exProjSpace) = true :=
  ⟨by decide, by decide, by decide⟩

/-- C1 (amended): the Emitter/Recoverer round-trip holds for projects whose
actions form one canonical chain — pairwise distinct ids, also distinct from
the sentinels, the chain's links stored exactly in `inputs`/`outputs`, and
every action type of the form `obj/method` with `convert_cc obj` containing
no space.  Then the Emitter emits one call statement per chain action in
order, and running the Recoverer on that text succeeds and leaves the cache
exactly equal to the original action set (same ids, same links). -/
theorem C1_round_trip (p : Project) (scene : Scene) (c0 : Action) (ctail : List Action)
    (cl : Action)
    (hperm : p.actions.Perm (c0 :: ctail))
    (hnd : (p.actions.map (fun a => a.id)).Nodup)
    (hfirst : c0.inputs = [⟨FIRST⟩])
    (hcl : (c0 :: ctail).getLast? = some cl)
    (hlast : cl.outputs = [⟨LAST⟩])
    (hchain : List.Chain' chainR (c0 :: ctail))
    (hsent : ∀ a ∈ c0 :: ctail, a.id ≠ FIRST ∧ a.id ≠ LAST)
    (htype : ∀ a ∈ c0 :: ctail, typeOk a = true) :
    program_src p scene p.actions.length = .ok ((c0 :: ctail).map mkStmt) ∧
    get_logic_from_source ((c0 :: ctail).map mkStmt) p =
      .ok ⟨p.actions.map (fun a => (a.id, a)),
           ((c0 :: ctail).map (fun a => a.id)).reverse, some cl.id⟩ := by
  have hmemch : ∀ x ∈ c0 :: ctail, x ∈ p.actions := fun x hx => hperm.mem_iff.mpr hx
  have hndch : ((c0 :: ctail).map (fun a => a.id)).Nodup := ((hperm.map _).nodup_iff).mp hnd
  have hndel : p.actions.Nodup := List.Nodup.of_map _ hnd
  have hclch : cl ∈ c0 :: ctail := mem_of_getLast_eq _ cl hcl
  have hf_c0 : hasFirst c0 = true := by unfold hasFirst; rw [hfirst]; simp
  have huniqF : ∀ x ∈ p.actions, hasFirst x = true → x = c0 := by
    intro x hx hhx
    have hxch : x ∈ c0 :: ctail := hperm.mem_iff.mp hx
    rcases List.mem_cons.mp hxch with rfl | hx2
    · rfl
    · obtain ⟨y, hy, hxy⟩ := chain_inputs ctail c0 hchain x hx2
      exfalso
      unfold hasFirst at hhx
      rw [hxy] at hhx
      simp at hhx
      exact (hsent y hy).1 hhx
  have hfilterF : p.actions.filter hasFirst = [c0] :=
    filter_eq_singleton_of_unique hasFirst p.actions c0
      (hmemch c0 (List.mem_cons_self _ _)) hf_c0 huniqF hndel
  have hl_cl : hasLast cl = true := by unfold hasLast; rw [hlast]; simp
  have huniqL : ∀ x ∈ p.actions, hasLast x = true → x = cl := by
    intro x hx hhx
    have hxch : x ∈ c0 :: ctail := hperm.mem_iff.mp hx
    rcases chain_outputs (c0 :: ctail) hchain x hxch with hg | ⟨y, hy, hxy⟩
    · rw [hcl] at hg
      injection hg with hg
      exact hg.symm
    · exfalso
      unfold hasLast at hhx
      rw [hxy] at hhx
      simp at hhx
      exact (hsent y hy).2 hhx
  have hfilterL : p.actions.filter hasLast = [cl] :=
    filter_eq_singleton_of_unique hasLast p.actions cl (hmemch cl hclch) hl_cl huniqL hndel
  have hmf : markerFold hasFirst none p.actions = some c0.id :=
    markerFold_filter_singleton p.actions none c0 hfilterF
  have hml : markerFold hasLast none p.actions = some cl.id :=
    markerFold_filter_singleton p.actions none cl hfilterL
  have hbc : buildCache p.actions = cacheMod p.actions (fun _ x => x) :=
    buildCache_eq p.actions hnd
  have hlen : p.actions.length = ctail.length + 1 := by
    rw [hperm.length_eq]
    simp
  constructor
  · unfold program_src add_logic_to_loop get_actions_cache
    rw [hbc, hmf, hml, hlen]
    exact emit_chain p.actions hnd cl ctail c0 hmemch hchain hndch hcl htype
  · have hstart : initState p = ⟨cacheMod p.actions (fun _ x => x), [], none⟩ := by
      unfold initState get_actions_cache
      rw [hbc]
    unfold get_logic_from_source
    rw [hstart]
    obtain ⟨o, m, hsplit, hsp⟩ := typeOk_split c0 (htype c0 (List.mem_cons_self _ _))
    have hfix := fix_eq_convert o hsp
    have hlook : lookupKV (cacheMod p.actions (fun _ x => x)) c0.id = some c0 :=
      lookup_cacheMod p.actions (fun _ x => x) c0 (hmemch c0 (List.mem_cons_self _ _)) hnd
    have hstmt : mkStmt c0 = Stmt.actionCall (fix_object_name o) m c0.id := by
      simp [mkStmt, hsplit]
    cases ctail with
    | nil =>
      have hc0cl : c0 = cl := by
        simp only [List.getLast?_singleton, Option.some.injEq] at hcl
        exact hcl
      subst hc0cl
      have hstep := recStep_ok_none
        ⟨cacheMod p.actions (fun _ x => x), [], none⟩
        (fix_object_name o) m c0.id c0 true o m rfl (by simp) hlook hsplit hfix.symm rfl
      simp only [] at hstep
      have hcache :
          updAct (updAct (cacheMod p.actions (fun _ x => x))
              c0.id (fun x => { x with inputs := [⟨FIRST⟩], outputs := [] }))
            c0.id (fun x => { x with outputs := x.outputs ++ [⟨LAST⟩] })
          = cacheMod p.actions (fun _ x => x) := by
        rw [updAct_cacheMod, updAct_cacheMod]
        apply cacheMod_congr
        intro x hx
        by_cases h1 : x.id = c0.id
        · have hxa : x = c0 :=
            nodup_map_inj hnd hx (hmemch c0 (List.mem_cons_self _ _)) h1
          subst hxa
          rw [← hfirst, ← hlast]
          simp [action_eta]
        · simp [h1]
      rw [hcache] at hstep
      simp only [List.map_cons, List.map_nil]
      rw [recoverAux_cons, hstmt,
          show (List.isEmpty ([] : List Stmt)) = true from rfl, hstep]
      rfl
    | cons b ct' =>
      have hstep := recStep_ok_none
        ⟨cacheMod p.actions (fun _ x => x), [], none⟩
        (fix_object_name o) m c0.id c0 false o m rfl (by simp) hlook hsplit hfix.symm rfl
      simp only [] at hstep
      have hcache :
          updAct (cacheMod p.actions (fun _ x => x))
              c0.id (fun x => { x with inputs := [⟨FIRST⟩], outputs := [] })
          = cacheMod p.actions
              (fun i x => if i = c0.id then { x with outputs := [] } else x) := by
        rw [updAct_cacheMod]
        apply cacheMod_congr
        intro x hx
        by_cases h1 : x.id = c0.id
        · have hxa : x = c0 :=
            nodup_map_inj hnd hx (hmemch c0 (List.mem_cons_self _ _)) h1
          subst hxa
          rw [← hfirst]
        · simp [h1]
      rw [hcache] at hstep
      have hfound' : ∀ x ∈ b :: ct', x.id ∉ [c0.id] := by
        intro x hx hmemf
        have h3 : x.id = c0.id := by simpa using hmemf
        rw [List.map_cons, List.nodup_cons] at hndch
        exact hndch.1 (h3 ▸ List.mem_map_of_mem (fun y => y.id) hx)
      have hrc := rec_chain p.actions hnd cl hlast ct' b c0 [c0.id]
        hmemch hchain hndch hcl
        (fun x hx => htype x (List.mem_cons_of_mem c0 hx)) hfound'
      simp only [List.map_cons]
      rw [recoverAux_cons, hstmt,
          show (mkStmt b :: List.map mkStmt ct').isEmpty = false from rfl, hstep]
      exact hrc.trans (by simp [cacheMod, List.append_assoc])

theorem C1_round_trip_witness :
    program_src exProjChain exSceneChain exProjChain.actions.length =
      .ok ((exActW1 :: [exActW2]).map mkStmt) ∧
    get_logic_from_source ((exActW1 :: [exActW2]).map mkStmt) exProjChain =
      .ok ⟨exProjChain.actions.map (fun a => (a.id, a)),
           ((exActW1 :: [exActW2]).map (fun a => a.id)).reverse, some exActW2.id⟩ :=
  C1_round_trip exProjChain exSceneChain exActW1 [exActW2] exActW2
    (by decide) (by decide) (by decide) (by decide) (by decide)
    (by rw [List.chain'_cons]; exact ⟨by decide, List.chain'_singleton _⟩)
    (by decide) (by decide)

/-! ## Invariant 1 after recovery (C9): helper lemmas -/

theorem lookup_cacheMod_inv :
    ∀ (l : List Action) (h : String → Action → Action) (k : String) (act : Action),
      lookupKV (cacheMod l h) k = some act →
      ∃ x ∈ l, x.id = k ∧ act = h x.id x := by
  intro l
  induction l with
  | nil => intro h k act hl; simp [cacheMod, lookupKV] at hl
  | cons y rest ih =>
    intro h k act hl
    simp only [cacheMod, List.map_cons, lookupKV] at hl
    split at hl
    · rename_i hy
      injection hl with hl
      exact ⟨y, List.mem_cons_self y rest, hy, hl.symm⟩
    · obtain ⟨x, hx, hxk, hact⟩ := ih h k act hl
      exact ⟨x, List.mem_cons_of_mem y hx, hxk, hact⟩

theorem recStep_ok_inv (st : RecState) (s : Stmt) (b : Bool) (st1 : RecState)
    (h : recStep st s b = .ok st1) :
    ∃ objId method aid action,
      s = Stmt.actionCall objId method aid ∧
      aid ∉ st.found ∧
      lookupKV st.cache aid = some action ∧
      st1.found = aid :: st.found ∧
      st1.lastId = some action.id ∧
      st1.cache =
        (let inIo : ActionIo :=
           match st.lastId with
           | none => ⟨FIRST⟩
           | some lid => ⟨lid⟩
         let c1 := updAct st.cache aid (fun a => { a with inputs := [inIo], outputs := [] })
         let c2 :=
           match st.lastId with
           | none => c1
           | some lid => updAct c1 lid (fun a => { a with outputs := a.outputs ++ [⟨action.id⟩] })
         if b then updAct c2 aid (fun a => { a with outputs := a.outputs ++ [⟨LAST⟩] })
         else c2) := by
  cases s with
  | other => simp [recStep] at h
  | actionCall objId method aid =>
    simp only [recStep] at h
    split at h
    · exact absurd h (by simp)
    · rename_i hnf
      split at h
      · exact absurd h (by simp)
      · rename_i action hlook
        split at h
        · exact absurd h (by simp)
        · rename_i o2 m2 hsplit
          split at h
          · exact absurd h (by simp)
          · rename_i hcond
            injection h with h
            exact ⟨objId, method, aid, action, rfl, hnf, hlook,
              by rw [← h], by rw [← h], by rw [← h]⟩

theorem hasFirst_outputs_irrelevant (y : Action) (o2 : List ActionIo) :
    hasFirst { y with outputs := o2 } = hasFirst y := rfl

theorem hasLast_of_append (y : Action) (z : ActionIo) (hy : hasLast y = false)
    (hz : ¬(z.default = LAST)) :
    hasLast { y with outputs := y.outputs ++ [z] } = false := by
  unfold hasLast at *
  cases hout : y.outputs with
  | nil => simp [hz]
  | cons io rest =>
    rw [hout] at hy
    simpa using hy

theorem filter_id_singleton :
    ∀ (l : List Action), (l.map (fun a => a.id)).Nodup →
      ∀ k : String, k ∈ l.map (fun a => a.id) →
      (l.filter (fun x => decide (x.id = k))).length = 1 := by
  intro l
  induction l with
  | nil => intro _ k hk; simp at hk
  | cons a rest ih =>
    intro hnd k hk
    rw [List.map_cons, List.nodup_cons] at hnd
    by_cases ha : a.id = k
    · rw [List.filter_cons_of_pos (by simp [ha])]
      have hrest : rest.filter (fun x => decide (x.id = k)) = [] := by
        rw [List.filter_eq_nil]
        intro x hx hpx
        simp only [decide_eq_true_eq] at hpx
        apply hnd.1
        rw [ha]
        exact hpx ▸ List.mem_map_of_mem _ hx
      rw [hrest]
      rfl
    · rw [List.filter_cons_of_neg (by simp [ha])]
      apply ih hnd.2
      rcases List.mem_cons.mp hk with he | hm
      · exact absurd he.symm ha
      · exact hm

/-! ## C9: the recovery-loop invariant is preserved and established -/

theorem C9_step_mid (p : Project)
    (hnd : (p.actions.map (fun a => a.id)).Nodup)
    (hsent : ∀ a ∈ p.actions, a.id ≠ FIRST ∧ a.id ≠ LAST)
    (st st1 : RecState) (s : Stmt) (firstId : String)
    (hinv : recMidInv p firstId st)
    (hstep : recStep st s false = .ok st1) :
    recMidInv p firstId st1 := by
  obtain ⟨hfF, hfI, ⟨lid, hlid, hlidm, hlidF, hlidL⟩,
    h, hceq, hidp, huntouched, hFirst, hLast⟩ := hinv
  obtain ⟨objId, method, aid, action, hs, hnf, hlook, hfound1, hlast1, hcache1⟩ :=
    recStep_ok_inv st s false st1 hstep
  rw [hceq] at hlook
  obtain ⟨x, hxmem, hxid, hact⟩ := lookup_cacheMod_inv p.actions h aid action hlook
  have hactid : action.id = aid := by rw [hact, hidp x hxmem, hxid]
  have hne_al : aid ≠ lid := fun he => hnf (he ▸ hlidm)
  have hc0 : st1.cache = updAct (updAct (cacheMod p.actions h) aid
      (fun a => { a with inputs := [⟨lid⟩], outputs := [] })) lid
      (fun a => { a with outputs := a.outputs ++ [⟨action.id⟩] }) := by
    rw [hcache1, hceq, hlid]
    rfl
  have hc : st1.cache = cacheMod p.actions
      (fun i y =>
        if i = lid then
          { (if i = aid then { (h i y) with inputs := [⟨lid⟩], outputs := [] } else h i y) with
              outputs := (if i = aid then { (h i y) with inputs := [⟨lid⟩], outputs := [] }
                          else h i y).outputs ++ [⟨action.id⟩] }
        else
          (if i = aid then { (h i y) with inputs := [⟨lid⟩], outputs := [] } else h i y)) := by
    rw [hc0, updAct_cacheMod, updAct_cacheMod]
  refine ⟨?_, hfI, ?_, ?_⟩
  · rw [hfound1]; exact List.mem_cons_of_mem aid hfF
  · refine ⟨action.id, hlast1, ?_, ?_, ?_⟩
    · rw [hfound1, hactid]; exact List.mem_cons_self _ _
    · rw [hactid, ← hxid]; exact (hsent x hxmem).1
    · rw [hactid, ← hxid]; exact (hsent x hxmem).2
  · refine ⟨_, hc, ?_, ?_, ?_, ?_⟩
    · intro y hy
      by_cases e1 : y.id = lid <;> by_cases e2 : y.id = aid
      · exact absurd (e2.symm.trans e1) hne_al
      · simp only [if_pos e1, if_neg e2]
        exact hidp y hy
      · simp only [if_neg e1, if_pos e2]
        exact hidp y hy
      · simp only [if_neg e1, if_neg e2]
        exact hidp y hy
    · intro y hy hynf
      rw [hfound1] at hynf
      have hy1 : y.id ≠ aid := fun he => hynf (he ▸ List.mem_cons_self _ _)
      have hy2 : y.id ∉ st.found := fun hm => hynf (List.mem_cons_of_mem _ hm)
      have hy3 : y.id ≠ lid := fun he => hy2 (he ▸ hlidm)
      simp only [if_neg hy1, if_neg hy3]
      exact huntouched y hy hy2
    · intro y hy hymem
      rw [hfound1] at hymem
      rcases List.mem_cons.mp hymem with he | hm
      · have hy3 : y.id ≠ lid := by rw [he]; exact hne_al
        simp only [if_pos he, if_neg hy3]
        constructor
        · intro hhf
          exfalso
          unfold hasFirst at hhf
          simp at hhf
          exact hlidF hhf
        · intro he2
          exact absurd (he2 ▸ hfF) (he ▸ hnf)
      · have hy1 : y.id ≠ aid := fun he => hnf (he ▸ hm)
        by_cases hy3 : y.id = lid
        · simp only [if_pos hy3, if_neg hy1, hasFirst_outputs_irrelevant]
          exact hFirst y hy hm
        · simp only [if_neg hy3, if_neg hy1]
          exact hFirst y hy hm
    · intro y hy hymem
      rw [hfound1] at hymem
      rcases List.mem_cons.mp hymem with he | hm
      · have hy3 : y.id ≠ lid := by rw [he]; exact hne_al
        simp only [if_pos he, if_neg hy3]
        rfl
      · have hy1 : y.id ≠ aid := fun he => hnf (he ▸ hm)
        by_cases hy3 : y.id = lid
        · simp only [if_pos hy3, if_neg hy1]
          apply hasLast_of_append
          · exact hLast y hy hm
          · show ¬(action.id = LAST)
            rw [hactid, ← hxid]
            exact (hsent x hxmem).2
        · simp only [if_neg hy3, if_neg hy1]
          exact hLast y hy hm

theorem updAct_cacheMod2 (l : List Action) (h : String → Action → Action) (k : String)
    (f : Action → Action) :
    updAct (cacheMod l h) k f = cacheMod l (updFun k f h) :=
  updAct_cacheMod l h k f

theorem C9_step_final (p : Project)
    (hnd : (p.actions.map (fun a => a.id)).Nodup)
    (hsent : ∀ a ∈ p.actions, a.id ≠ FIRST ∧ a.id ≠ LAST)
    (st st1 : RecState) (s : Stmt) (firstId : String)
    (hinv : recMidInv p firstId st)
    (hstep : recStep st s true = .ok st1) :
    recPostInv p firstId st1 := by
  obtain ⟨hfF, hfI, ⟨lid, hlid, hlidm, hlidF, hlidL⟩,
    h, hceq, hidp, huntouched, hFirst, hLast⟩ := hinv
  obtain ⟨objId, method, aid, action, hs, hnf, hlook, hfound1, hlast1, hcache1⟩ :=
    recStep_ok_inv st s true st1 hstep
  rw [hceq] at hlook
  obtain ⟨x, hxmem, hxid, hact⟩ := lookup_cacheMod_inv p.actions h aid action hlook
  have hactid : action.id = aid := by rw [hact, hidp x hxmem, hxid]
  have hne_al : aid ≠ lid := fun he => hnf (he ▸ hlidm)
  have hc0 : st1.cache = updAct (updAct (updAct (cacheMod p.actions h) aid
      (fun a => { a with inputs := [⟨lid⟩], outputs := [] })) lid
      (fun a => { a with outputs := a.outputs ++ [⟨action.id⟩] })) aid
      (fun a => { a with outputs := a.outputs ++ [⟨LAST⟩] }) := by
    rw [hcache1, hceq, hlid]
    rfl
  have hc : st1.cache = cacheMod p.actions
      (updFun aid (fun a => { a with outputs := a.outputs ++ [⟨LAST⟩] })
        (updFun lid (fun a => { a with outputs := a.outputs ++ [⟨action.id⟩] })
          (updFun aid (fun a => { a with inputs := [⟨lid⟩], outputs := [] }) h))) := by
    rw [hc0, updAct_cacheMod2, updAct_cacheMod2, updAct_cacheMod2]
  refine ⟨?_, hfI, action.id, hlast1, ?_, ?_, ?_⟩
  · rw [hfound1]
    exact List.mem_cons_of_mem aid hfF
  · rw [hfound1, hactid]
    exact List.mem_cons_self _ _
  · rw [hactid, ← hxid]
    exact List.mem_map_of_mem _ hxmem
  refine ⟨_, hc, ?_, ?_, ?_⟩
  · intro y hy
    by_cases e1 : y.id = lid <;> by_cases e2 : y.id = aid
    · exact absurd (e2.symm.trans e1) hne_al
    · simp only [updFun, if_pos e1, if_neg e2]
      exact hidp y hy
    · simp only [updFun, if_neg e1, if_pos e2]
      exact hidp y hy
    · simp only [updFun, if_neg e1, if_neg e2]
      exact hidp y hy
  · intro y hy hymem
    rw [hfound1] at hymem
    rcases List.mem_cons.mp hymem with he | hm
    · have hy3 : y.id ≠ lid := by rw [he]; exact hne_al
      simp only [updFun, if_pos he, if_neg hy3]
      constructor
      · intro hhf
        exfalso
        unfold hasFirst at hhf
        simp at hhf
        exact hlidF hhf
      · intro he2
        exact absurd (he2 ▸ hfF) (he ▸ hnf)
    · have hy1 : y.id ≠ aid := fun he => hnf (he ▸ hm)
      by_cases hy3 : y.id = lid
      · simp only [updFun, if_pos hy3, if_neg hy1, hasFirst_outputs_irrelevant]
        exact hFirst y hy hm
      · simp only [updFun, if_neg hy3, if_neg hy1]
        exact hFirst y hy hm
  · intro y hy hymem
    rw [hfound1] at hymem
    rcases List.mem_cons.mp hymem with he | hm
    · have hy3 : y.id ≠ lid := by rw [he]; exact hne_al
      simp only [updFun, if_pos he, if_neg hy3]
      constructor
      · intro _
        rw [hactid]
        exact he
      · intro _
        unfold hasLast
        simp
    · have hy1 : y.id ≠ aid := fun he => hnf (he ▸ hm)
      have hyne : y.id ≠ action.id := by rw [hactid]; exact hy1
      by_cases hy3 : y.id = lid
      · simp only [updFun, if_pos hy3, if_neg hy1]
        have hzn : ¬((⟨action.id⟩ : ActionIo).default = LAST) := by
          show ¬(action.id = LAST)
          rw [hactid, ← hxid]
          exact (hsent x hxmem).2
        constructor
        · intro hhl
          rw [hasLast_of_append (h y.id y) ⟨action.id⟩ (hLast y hy hm) hzn] at hhl
          exact absurd hhl (by simp)
        · intro he2
          exact absurd he2 hyne
      · simp only [updFun, if_neg hy3, if_neg hy1]
        rw [hLast y hy hm]
        constructor
        · intro h0
          exact absurd h0 (by simp)
        · intro he2
          exact absurd he2 hyne

theorem C9_step_first (p : Project)
    (hnd : (p.actions.map (fun a => a.id)).Nodup)
    (hsent : ∀ a ∈ p.actions, a.id ≠ FIRST ∧ a.id ≠ LAST)
    (s : Stmt) (st1 : RecState)
    (hstep : recStep (initState p) s false = .ok st1) :
    ∃ firstId, recMidInv p firstId st1 := by
  obtain ⟨objId, method, aid, action, hs, hnf, hlook, hfound1, hlast1, hcache1⟩ :=
    recStep_ok_inv (initState p) s false st1 hstep
  have hcinit : (initState p).cache = cacheMod p.actions (fun _ a => a) := by
    show buildCache p.actions = _
    exact buildCache_eq p.actions hnd
  rw [hcinit] at hlook
  obtain ⟨x, hxmem, hxid, hact⟩ :=
    lookup_cacheMod_inv p.actions (fun _ a => a) aid action hlook
  have hactid : action.id = aid := by rw [hact]; exact hxid
  have hc0 : st1.cache = updAct (cacheMod p.actions (fun _ a => a)) aid
      (fun a => { a with inputs := [⟨FIRST⟩], outputs := [] }) := by
    rw [hcache1, hcinit]
    rfl
  have hc : st1.cache = cacheMod p.actions
      (updFun aid (fun a => { a with inputs := [⟨FIRST⟩], outputs := [] })
        (fun _ a => a)) := by
    rw [hc0, updAct_cacheMod2]
  refine ⟨aid, ?_, ?_, ⟨action.id, hlast1, ?_, ?_, ?_⟩, ?_⟩
  · rw [hfound1]
    exact List.mem_cons_self _ _
  · rw [← hxid]
    exact List.mem_map_of_mem _ hxmem
  · rw [hactid, hfound1]
    exact List.mem_cons_self _ _
  · rw [hactid, ← hxid]
    exact (hsent x hxmem).1
  · rw [hactid, ← hxid]
    exact (hsent x hxmem).2
  refine ⟨_, hc, ?_, ?_, ?_, ?_⟩
  · intro y hy
    by_cases e : y.id = aid
    · simp only [updFun, if_pos e]
    · simp only [updFun, if_neg e]
  · intro y hy hynf
    rw [hfound1] at hynf
    have hy1 : y.id ≠ aid := fun he => hynf (he ▸ List.mem_cons_self _ _)
    simp only [updFun, if_neg hy1]
  · intro y hy hymem
    rw [hfound1] at hymem
    have he : y.id = aid := by
      rcases List.mem_cons.mp hymem with he | hm
      · exact he
      · exact absurd hm (List.not_mem_nil y.id)
    simp only [updFun, if_pos he]
    constructor
    · intro _
      exact he
    · intro _
      unfold hasFirst
      simp
  · intro y hy hymem
    rw [hfound1] at hymem
    have he : y.id = aid := by
      rcases List.mem_cons.mp hymem with he | hm
      · exact he
      · exact absurd hm (List.not_mem_nil y.id)
    simp only [updFun, if_pos he]
    rfl

theorem C9_step_first_post (p : Project)
    (hnd : (p.actions.map (fun a => a.id)).Nodup)
    (hsent : ∀ a ∈ p.actions, a.id ≠ FIRST ∧ a.id ≠ LAST)
    (s : Stmt) (st1 : RecState)
    (hstep : recStep (initState p) s true = .ok st1) :
    ∃ firstId, recPostInv p firstId st1 := by
  obtain ⟨objId, method, aid, action, hs, hnf, hlook, hfound1, hlast1, hcache1⟩ :=
    recStep_ok_inv (initState p) s true st1 hstep
  have hcinit : (initState p).cache = cacheMod p.actions (fun _ a => a) := by
    show buildCache p.actions = _
    exact buildCache_eq p.actions hnd
  rw [hcinit] at hlook
  obtain ⟨x, hxmem, hxid, hact⟩ :=
    lookup_cacheMod_inv p.actions (fun _ a => a) aid action hlook
  have hactid : action.id = aid := by rw [hact]; exact hxid
  have hc0 : st1.cache = updAct (updAct (cacheMod p.actions (fun _ a => a)) aid
      (fun a => { a with inputs := [⟨FIRST⟩], outputs := [] })) aid
      (fun a => { a with outputs := a.outputs ++ [⟨LAST⟩] }) := by
    rw [hcache1, hcinit]
    rfl
  have hc : st1.cache = cacheMod p.actions
      (updFun aid (fun a => { a with outputs := a.outputs ++ [⟨LAST⟩] })
        (updFun aid (fun a => { a with inputs := [⟨FIRST⟩], outputs := [] })
          (fun _ a => a))) := by
    rw [hc0, updAct_cacheMod2, updAct_cacheMod2]
  refine ⟨aid, ?_, ?_, action.id, hlast1, ?_, ?_, ?_⟩
  · rw [hfound1]
    exact List.mem_cons_self _ _
  · rw [← hxid]
    exact List.mem_map_of_mem _ hxmem
  · rw [hactid, hfound1]
    exact List.mem_cons_self _ _
  · rw [hactid, ← hxid]
    exact List.mem_map_of_mem _ hxmem
  refine ⟨_, hc, ?_, ?_, ?_⟩
  · intro y hy
    by_cases e : y.id = aid
    · simp only [updFun, if_pos e]
    · simp only [updFun, if_neg e]
  · intro y hy hymem
    rw [hfound1] at hymem
    have he : y.id = aid := by
      rcases List.mem_cons.mp hymem with he | hm
      · exact he
      · exact absurd hm (List.not_mem_nil y.id)
    simp only [updFun, if_pos he]
    constructor
    · intro _
      exact he
    · intro _
      unfold hasFirst
      simp
  · intro y hy hymem
    rw [hfound1] at hymem
    have he : y.id = aid := by
      rcases List.mem_cons.mp hymem with he | hm
      · exact he
      · exact absurd hm (List.not_mem_nil y.id)
    simp only [updFun, if_pos he]
    constructor
    · intro _
      rw [hactid]
      exact he
    · intro _
      unfold hasLast
      simp

theorem C9_aux (p : Project)
    (hnd : (p.actions.map (fun a => a.id)).Nodup)
    (hsent : ∀ a ∈ p.actions, a.id ≠ FIRST ∧ a.id ≠ LAST)
    (firstId : String) :
    ∀ (loop : List Stmt), loop ≠ [] → ∀ (st st1 : RecState),
      recMidInv p firstId st → recoverAux st loop = .ok st1 →
      recPostInv p firstId st1 := by
  intro loop
  induction loop with
  | nil => intro hne; exact absurd rfl hne
  | cons s rest ih =>
    intro _ st st1 hmid hrec
    rw [recoverAux_cons] at hrec
    cases rest with
    | nil =>
      simp only [List.isEmpty_nil] at hrec
      cases hstep : recStep st s true with
      | ok st2 =>
        rw [hstep] at hrec
        simp only [recoverAux] at hrec
        injection hrec with h2
        rw [← h2]
        exact C9_step_final p hnd hsent st st2 s firstId hmid hstep
      | err m c =>
        rw [hstep] at hrec
        exact absurd hrec (by simp)
      | pyerr m c =>
        rw [hstep] at hrec
        exact absurd hrec (by simp)
    | cons r rs =>
      simp only [List.isEmpty_cons] at hrec
      cases hstep : recStep st s false with
      | ok st2 =>
        rw [hstep] at hrec
        exact ih (List.cons_ne_nil r rs) st2 st1
          (C9_step_mid p hnd hsent st st2 s firstId hmid hstep) hrec
      | err m c =>
        rw [hstep] at hrec
        exact absurd hrec (by simp)
      | pyerr m c =>
        rw [hstep] at hrec
        exact absurd hrec (by simp)

theorem filter_map_length {α β : Type} (f : α → β) (P : β → Bool) (Q : α → Bool) :
    ∀ (l : List α), (∀ a ∈ l, P (f a) = Q a) →
      ((l.map f).filter P).length = (l.filter Q).length := by
  intro l
  induction l with
  | nil => intro _; rfl
  | cons a rest ih =>
    intro hpq
    rw [List.map_cons]
    by_cases hq : Q a = true
    · rw [List.filter_cons_of_pos (by rw [hpq a (List.mem_cons_self a rest)]; exact hq),
        List.filter_cons_of_pos hq]
      simp only [List.length_cons]
      rw [ih (fun y hy => hpq y (List.mem_cons_of_mem a hy))]
    · rw [List.filter_cons_of_neg (by rw [hpq a (List.mem_cons_self a rest)]; simpa using hq),
        List.filter_cons_of_neg (by simpa using hq)]
      exact ih (fun y hy => hpq y (List.mem_cons_of_mem a hy))

theorem postInv_filter (p : Project) (firstId : String) (st : RecState)
    (hnd : (p.actions.map (fun a => a.id)).Nodup)
    (hpost : recPostInv p firstId st) :
    ((st.cache.map (fun q => q.2)).filter
        (fun a => decide (a.id ∈ st.found) && hasFirst a)).length = 1 ∧
    ((st.cache.map (fun q => q.2)).filter
        (fun a => decide (a.id ∈ st.found) && hasLast a)).length = 1 := by
  obtain ⟨hfF, hfI, lastAid, hlast, hlm, hlI, h, hceq, hidp, hFirst, hLast⟩ := hpost
  have hmap : st.cache.map (fun q => q.2) = p.actions.map (fun a => h a.id a) := by
    rw [hceq]
    unfold cacheMod
    rw [List.map_map]
    rfl
  have key : ∀ (P : Action → Bool) (tgt : String), tgt ∈ st.found →
      (∀ y ∈ p.actions, y.id ∈ st.found → (P (h y.id y) = true ↔ y.id = tgt)) →
      tgt ∈ p.actions.map (fun a => a.id) →
      ((st.cache.map (fun q => q.2)).filter
        (fun a => decide (a.id ∈ st.found) && P a)).length = 1 := by
    intro P tgt htm hiff htI
    have hpq : ∀ a ∈ p.actions,
        (decide ((h a.id a).id ∈ st.found) && P (h a.id a)) = decide (a.id = tgt) := by
      intro a ha
      rw [hidp a ha]
      by_cases hm : a.id ∈ st.found
      · rw [decide_eq_true hm, Bool.true_and]
        by_cases heq : a.id = tgt
        · rw [decide_eq_true heq]
          exact (hiff a ha hm).mpr heq
        · rw [decide_eq_false heq]
          cases hP : P (h a.id a)
          · rfl
          · exact absurd ((hiff a ha hm).mp hP) heq
      · rw [decide_eq_false hm, Bool.false_and]
        have hne : a.id ≠ tgt := fun he => hm (he ▸ htm)
        rw [decide_eq_false hne]
    rw [hmap, filter_map_length (fun a => h a.id a) _ _ p.actions hpq]
    exact filter_id_singleton p.actions hnd tgt htI
  exact ⟨key hasFirst firstId hfF hFirst hfI, key hasLast lastAid hlm hLast hlI⟩

/-- C9 counterexample: over the whole action set the claim fails.  On
`exProj9` the loop body references only action `a`; the recovery finishes
without error, yet afterwards both `a` and the untouched `b` carry the
`FIRST` input marker and both carry the `LAST` output marker — two of each,
not exactly one. -/
theorem C9_counterexample :
    get_logic_from_source exLoop9 exProj9 = .ok exSt9 ∧
    ((exSt9.cache.map (fun q => q.2)).filter hasFirst).length = 2 ∧
    ((exSt9.cache.map (fun q => q.2)).filter hasLast).length = 2 :=
  ⟨by decide, by decide, by decide⟩

/-- C9 (amended): when `get_logic_from_source` returns without error on a
nonempty loop body, over a project whose action ids are duplicate-free and
distinct from the `FIRST`/`LAST` sentinels, invariant 1 holds among the
actions the text referenced: exactly one cache entry named by the text has
`inputs[0] == FIRST` and exactly one has `outputs[0] == LAST`.  Over the
whole action set the invariant can fail, because actions the text omits keep
their stale markers (`C9_counterexample`). -/
theorem C9_referenced_markers (p : Project) (loop : List Stmt) (st1 : RecState)
    (hnd : (p.actions.map (fun a => a.id)).Nodup)
    (hsent : ∀ a ∈ p.actions, a.id ≠ FIRST ∧ a.id ≠ LAST)
    (hne : loop ≠ [])
    (hok : get_logic_from_source loop p = .ok st1) :
    ((st1.cache.map (fun q => q.2)).filter
        (fun a => decide (a.id ∈ st1.found) && hasFirst a)).length = 1 ∧
    ((st1.cache.map (fun q => q.2)).filter
        (fun a => decide (a.id ∈ st1.found) && hasLast a)).length = 1 := by
  cases loop with
  | nil => exact absurd rfl hne
  | cons s rest =>
    unfold get_logic_from_source at hok
    rw [recoverAux_cons] at hok
    cases rest with
    | nil =>
      simp only [List.isEmpty_nil] at hok
      cases hstep : recStep (initState p) s true with
      | ok st2 =>
        rw [hstep] at hok
        simp only [recoverAux] at hok
        injection hok with h2
        obtain ⟨fid, hpost⟩ := C9_step_first_post p hnd hsent s st2 hstep
        rw [← h2]
        exact postInv_filter p fid st2 hnd hpost
      | err m c =>
        rw [hstep] at hok
        exact absurd hok (by simp)
      | pyerr m c =>
        rw [hstep] at hok
        exact absurd hok (by simp)
    | cons r rs =>
      simp only [List.isEmpty_cons] at hok
      cases hstep : recStep (initState p) s false with
      | ok st2 =>
        rw [hstep] at hok
        obtain ⟨fid, hmid⟩ := C9_step_first p hnd hsent s st2 hstep
        exact postInv_filter p fid st1 hnd
          (C9_aux p hnd hsent fid (r :: rs) (List.cons_ne_nil r rs) st2 st1 hmid hok)
      | err m c =>
        rw [hstep] at hok
        exact absurd hok (by simp)
      | pyerr m c =>
        rw [hstep] at hok
        exact absurd hok (by simp)

theorem C9_referenced_markers_witness :
    ((exStChain.cache.map (fun q => q.2)).filter
        (fun a => decide (a.id ∈ exStChain.found) && hasFirst a)).length = 1 ∧
    ((exStChain.cache.map (fun q => q.2)).filter
        (fun a => decide (a.id ∈ exStChain.found) && hasLast a)).length = 1 :=
  C9_referenced_markers exProjChain exLoopChain exStChain
    (by decide) (by decide) (by decide) (by decide)

end Arcor2
